import Mathlib

/-!
Verification development for the `bhtt` streaming histogram library
(Ben-Haim/Tom-Tov sketch).

Shallow embedding conventions:
* Rust `f64` values are modelled as exact rationals (`ℚ`); all values stored in
  the structures are finite and non-NaN by construction in the source, so no
  NaN/infinity case is needed for stored data.  `f64::sqrt` is modelled as an
  opaque function parameter `sq : ℚ → ℚ`, shared between the code embedding and
  any specification formula, so that equality of expressions containing `sqrt`
  can be stated without committing to a particular square-root model.
* Rust `u64` counts and `usize` indices are modelled as `ℕ`.
* A Rust `panic!`/failed `assert!` is modelled as `none` of an `Option` result.
* `superslice::upper_bound` is modelled by a faithful translation of its
  binary-search loop (the loop is translated with an explicit fuel argument
  equal to the initial window size, which strictly dominates the number of
  iterations, so the fuel never runs out).
-/

/-- Histogram bin stored as a (value, count) pair (`src/bin.rs`). -/
structure Bin where
  value : ℚ
  count : ℕ
deriving DecidableEq, Repr

/-- Default bin used to totalise list indexing; it is never produced by
in-bounds accesses. -/
def dBin : Bin := ⟨0, 0⟩

/-- Derived `Ord`/`PartialOrd` of `Bin`: lexicographic on (value, count). -/
def Bin.le (a b : Bin) : Prop :=
  a.value < b.value ∨ (a.value = b.value ∧ a.count ≤ b.count)

instance Bin.decLe (a b : Bin) : Decidable (Bin.le a b) :=
  inferInstanceAs (Decidable (a.value < b.value ∨ (a.value = b.value ∧ a.count ≤ b.count)))

/-- Modelled from the spec: `Bin::empty` is referenced throughout
`src/histogram.rs` but its definition is not among the provided sources.  The
spec (§4.2, §4.3, §9) describes it as the weightless placeholder bin
`Bin(value, 0)` standing in at a boundary. -/
def Bin.empty (value : ℚ) : Bin := ⟨value, 0⟩

/-- `Bin::merge` (`src/bin.rs`): weighted average of the two bins; the
`assert!(count > 0)` failure is modelled as `none`. -/
def Bin.merge (left right : Bin) : Option Bin :=
  let count := left.count + right.count
  if count = 0 then none
  else some ⟨(left.value * (left.count : ℚ) + right.value * (right.count : ℚ)) / (count : ℚ), count⟩

/-- One step structure of `superslice`'s `upper_bound_by` binary-search loop:
`while size > 1 { let half = size / 2; let mid = base + half;
  base = if cmp(mid) == Greater { base } else { mid }; size -= half; }`.
The `fuel` argument only drives the recursion; it is initialised to the
initial `size`, which strictly exceeds the iteration count. -/
def ubLoop (bins : List Bin) (key : Bin) : ℕ → ℕ → ℕ → ℕ
  | 0, base, _ => base
  | fuel + 1, base, size =>
    if size ≤ 1 then base
    else
      let half := size / 2
      let mid := base + half
      if Bin.le (bins.getD mid dBin) key then ubLoop bins key fuel mid (size - half)
      else ubLoop bins key fuel base (size - half)

/-- `superslice::upper_bound` on a slice of `Bin`s: binary search used by
`Histogram::insert` and `Histogram::count_less_than_or_equal_to`. -/
def upperBound (bins : List Bin) (key : Bin) : ℕ :=
  if bins.length = 0 then 0
  else
    let base := ubLoop bins key bins.length 0 bins.length
    if Bin.le (bins.getD base dBin) key then base + 1 else base

/-- Rust `f64::abs`. -/
def ratAbs (x : ℚ) : ℚ := if x < 0 then -x else x

/-- Key by which adjacent bin pairs are compared in
`Histogram::find_closest_bins`: (absolute value distance, combined count). -/
def pairKey (bins : List Bin) (i : ℕ) : ℚ × ℕ :=
  (ratAbs ((bins.getD i dBin).value - (bins.getD (i - 1) dBin).value),
   (bins.getD (i - 1) dBin).count + (bins.getD i dBin).count)

/-- Strict lexicographic order on the closest-pair keys. -/
def keyLt (a b : ℚ × ℕ) : Prop := a.1 < b.1 ∨ (a.1 = b.1 ∧ a.2 < b.2)

instance keyLt.dec (a b : ℚ × ℕ) : Decidable (keyLt a b) :=
  inferInstanceAs (Decidable (a.1 < b.1 ∨ (a.1 = b.1 ∧ a.2 < b.2)))

/-- Rust `Iterator::min_by_key`: the first element attaining the minimal key
(a later element replaces the accumulator only when its key is strictly
smaller). -/
def minByKeyFirst (l : List ℕ) (key : ℕ → ℚ × ℕ) : Option ℕ :=
  match l with
  | [] => none
  | x :: xs => some (xs.foldl (fun acc i => if keyLt (key i) (key acc) then i else acc) x)

/-- `Histogram::find_closest_bins`: the index pair `(right_index - 1,
right_index)` of the closest adjacent bins.  With fewer than two bins the
original code underflows a `usize` subtraction (a panic), modelled as
`none`; it is only ever called with at least two bins. -/
def findClosestBins (bins : List Bin) : Option (ℕ × ℕ) :=
  match minByKeyFirst (List.range' 1 (bins.length - 1)) (pairKey bins) with
  | none => none
  | some r => some (r - 1, r)

/-- Loop body of `Histogram::shrink`: while the bin list is longer than
`size`, merge the closest adjacent pair in place (`bins[left] =
Bin::merge(..); bins.remove(right)`).  The fuel is initialised to the list
length, which dominates the number of iterations (each iteration removes one
bin). -/
def shrinkLoop (size : ℕ) : ℕ → List Bin → Option (List Bin)
  | 0, bins => if bins.length ≤ size then some bins else none
  | fuel + 1, bins =>
    if bins.length ≤ size then some bins
    else
      match findClosestBins bins with
      | none => none
      | some (l, r) =>
        match Bin.merge (bins.getD l dBin) (bins.getD r dBin) with
        | none => none
        | some m => shrinkLoop size fuel ((bins.set l m).eraseIdx r)

/-- `Histogram::shrink`. -/
def shrink (size : ℕ) (bins : List Bin) : Option (List Bin) :=
  shrinkLoop size bins.length bins

/-- The histogram structure (`src/histogram.rs`). -/
structure Histogram where
  size : ℕ
  bins : List Bin
  min_value : Option ℚ
  max_value : Option ℚ
deriving DecidableEq, Repr

/-- `Histogram::new`; the `assert!(size > 0)` failure is modelled as `none`. -/
def Histogram.new (size : ℕ) : Option Histogram :=
  if size = 0 then none else some ⟨size, [], none, none⟩

/-- `Histogram::count`: the sum of all bin counts (derived, not stored). -/
def Histogram.count (h : Histogram) : ℕ := (h.bins.map Bin.count).sum

/-- `Histogram::track_min_max`. -/
def Histogram.trackMinMax (h : Histogram) (value : ℚ) : Histogram :=
  { h with
    min_value := some (match h.min_value with
      | none => value
      | some current => if value < current then value else current),
    max_value := some (match h.max_value with
      | none => value
      | some current => if value > current then value else current) }

/-- `Histogram::insert` for a `Bin` argument (the generic
`insert<T: Into<Bin>>`): sorted insertion at the upper bound, shrink, then
min/max tracking with the inserted bin's value. -/
def Histogram.insert (h : Histogram) (bin : Bin) : Option Histogram :=
  let bins1 := List.insertIdx (upperBound h.bins bin) bin h.bins
  match shrink h.size bins1 with
  | none => none
  | some bins2 => some (Histogram.trackMinMax { h with bins := bins2 } bin.value)

/-- `Histogram::insert` for a bare value: `From<f64> for Bin` wraps it as
`Bin(value, 1)`. -/
def Histogram.insertValue (h : Histogram) (value : ℚ) : Option Histogram :=
  h.insert ⟨value, 1⟩

/-- Folding `Histogram::insert` over a list of bins (the loop inside
`Histogram::merge`). -/
def insertAllBins : Histogram → List Bin → Option Histogram
  | h, [] => some h
  | h, b :: rest =>
    match h.insert b with
    | none => none
    | some h2 => insertAllBins h2 rest

/-- `Histogram::merge`: insert every bin of `other`, then update the tracked
extremes with `other`'s tracked min/max. -/
def Histogram.merge (h : Histogram) (other : Histogram) : Option Histogram :=
  match insertAllBins h other.bins with
  | none => none
  | some h1 =>
    let h2 := match other.min_value with
      | none => h1
      | some v => h1.trackMinMax v
    let h3 := match other.max_value with
      | none => h2
      | some v => h2.trackMinMax v
    some h3

/-- `Histogram::get_bordering_bins`: the bin pair around conceptual index `i`,
with virtual zero-count boundary bins carrying the tracked extremes at the two
ends.  Failed `unwrap()`s and out-of-bounds indexing are modelled as `none`. -/
def Histogram.getBorderingBins (h : Histogram) (i : ℕ) : Option (Bin × Bin) :=
  if i = 0 then
    match h.min_value, h.bins.head? with
    | some m, some b => some (Bin.empty m, b)
    | _, _ => none
  else if i = h.bins.length then
    match h.bins.getLast?, h.max_value with
    | some b, some mx => some (b, Bin.empty mx)
    | _, _ => none
  else if i < h.bins.length then some (h.bins.getD (i - 1) dBin, h.bins.getD i dBin)
  else none

/-- Running partial sums (Rust's `scan` with a `+=` accumulator). -/
def prefixSums (acc : ℚ) : List ℚ → List ℚ
  | [] => []
  | x :: xs => (acc + x) :: prefixSums (acc + x) xs

/-- The averages of adjacent bin counts, starting with the virtual zero-count
bin paired with the first bin: the `zip`/`map` stage of
`Histogram::index_of_cumulative_count_less_than`. -/
def adjacentAvgs (bins : List Bin) : List ℚ :=
  List.zipWith (fun l r => ((l.count + r.count : ℕ) : ℚ) / 2) bins (Bin.empty 0 :: bins)

/-- `Histogram::index_of_cumulative_count_less_than`: index one past the
largest prefix of the cumulative average sums that stays strictly below
`target_count`, together with that prefix's sum. -/
def indexOfCumulativeCountLessThan (bins : List Bin) (targetCount : ℚ) : ℕ × ℚ :=
  let sums := prefixSums 0 (adjacentAvgs bins)
  let pfx := sums.takeWhile (fun s => decide (targetCount > s))
  match pfx.getLast? with
  | none => (0, 0)
  | some s => (pfx.length, s)

/-- `Histogram::quantile`.  The result is `none` on a panic (the range
assert, or an internal `unwrap` failure), `some none` for Rust's `None`, and
`some (some v)` for `Some(v)`.  `sq` models `f64::sqrt`. -/
def Histogram.quantile (sq : ℚ → ℚ) (h : Histogram) (q : ℚ) : Option (Option ℚ) :=
  if ¬ (0 ≤ q ∧ q ≤ 1) then none
  else if q = 0 then some h.min_value
  else if q = 1 then some h.max_value
  else if h.count = 0 then some none
  else
    let qthCount := (h.count : ℚ) * q
    let res := indexOfCumulativeCountLessThan h.bins qthCount
    match h.getBorderingBins res.1 with
    | none => none
    | some (leftBin, rightBin) =>
      let leftValue := leftBin.value
      let leftCount : ℚ := leftBin.count
      let rightValue := rightBin.value
      let rightCount : ℚ := rightBin.count
      let d := qthCount - res.2
      let a := rightCount - leftCount
      if a = 0 then some (some (leftValue + (rightValue - leftValue) * d / leftCount))
      else
        let b := 2 * leftCount
        let c := -2 * d
        let z := (-b + sq (b ^ 2 - 4 * a * c)) / (2 * a)
        some (some (leftValue + (rightValue - leftValue) * z))

/-- Rust's `f64::round`: round half away from zero. -/
def rustRound (x : ℚ) : ℤ := if 0 ≤ x then ⌊x + 1 / 2⌋ else -⌊-x + 1 / 2⌋

/-- `Histogram::count_less_than_or_equal_to`.  `none` models a panic; the NaN
argument assert has no counterpart since `ℚ` has no NaN. -/
def Histogram.countLessThanOrEqualTo (h : Histogram) (value : ℚ) : Option ℕ :=
  let totalCount := h.count
  let belowMin : Bool := match h.min_value with
    | some m => decide (value < m)
    | none => false
  let atOrAboveMax : Bool := match h.max_value with
    | some m => decide (m ≤ value)
    | none => false
  if totalCount = 0 ∨ belowMin then some 0
  else if atOrAboveMax then some totalCount
  else
    let pos := upperBound h.bins (Bin.empty value)
    let left := pos - 1
    let countUpToLeft := ((h.bins.take left).map Bin.count).sum
    match h.getBorderingBins pos with
    | none => none
    | some (leftBin, rightBin) =>
      let leftValue := leftBin.value
      let leftCount : ℚ := leftBin.count
      let rightValue := rightBin.value
      let rightCount : ℚ := rightBin.count
      let countLeftToValue : ℚ :=
        if rightValue - leftValue ≤ 0 then 0
        else
          let proximityToRight := (value - leftValue) / (rightValue - leftValue)
          let c := leftCount + (rightCount - leftCount) * proximityToRight
          (leftCount + c) / 2 * proximityToRight
      some (rustRound ((countUpToLeft : ℚ) + leftCount / 2 + countLeftToValue)).toNat

/-- Histogram states reachable through the public mutating API:
`new`, `insert` (value or `Bin`) and `merge` with another reachable
histogram, each completing without a panic. -/
inductive Reachable : Histogram → Prop where
  | new : ∀ size h, Histogram.new size = some h → Reachable h
  | insert : ∀ h b h2, Reachable h → Histogram.insert h b = some h2 → Reachable h2
  | insertValue : ∀ h v h2, Reachable h → Histogram.insertValue h v = some h2 → Reachable h2
  | merge : ∀ h other h2, Reachable h → Reachable other → Histogram.merge h other = some h2 →
      Reachable h2

/-- The bins are sorted ascending by value (ties between equal values in any
count order). -/
def VSorted (l : List Bin) : Prop := l.Pairwise (fun a b => a.value ≤ b.value)

/-- Within every run of equal-valued bins, zero-count bins precede
positive-count ones. -/
def ZerosFirst (l : List Bin) : Prop :=
  l.Pairwise (fun a b => a.value = b.value → 1 ≤ a.count → 1 ≤ b.count)

/-- Internal invariant of reachable histograms. -/
def Histogram.Inv (h : Histogram) : Prop :=
  1 ≤ h.size ∧ h.bins.length ≤ h.size ∧ VSorted h.bins ∧ ZerosFirst h.bins ∧
  (h.bins = [] ↔ h.min_value = none) ∧ (h.bins = [] ↔ h.max_value = none) ∧
  (∀ m, h.min_value = some m → ∀ b ∈ h.bins, m ≤ b.value) ∧
  (∀ m, h.max_value = some m → ∀ b ∈ h.bins, b.value ≤ m)

/-- Spec-side bordering bins (§4.3 of the spec), with the tracked extremes
passed explicitly. -/
def specBorderingBins (bins : List Bin) (m M : ℚ) (i : ℕ) : Bin × Bin :=
  if i = 0 then (Bin.empty m, bins.getD 0 dBin)
  else if i = bins.length then (bins.getD (bins.length - 1) dBin, Bin.empty M)
  else (bins.getD (i - 1) dBin, bins.getD i dBin)

/-- Spec-side sequence of averages of adjacent bin counts, starting with the
virtual zero-count bin paired with the first bin. -/
def specAdjAvgs (bins : List Bin) : List ℚ :=
  (List.range bins.length).map (fun i =>
    (((bins.getD i dBin).count : ℚ) +
      (if i = 0 then 0 else ((bins.getD (i - 1) dBin).count : ℚ))) / 2)

/-- Spec-side cumulative sums of a list. -/
def specCumSums (l : List ℚ) : List ℚ :=
  (List.range l.length).map (fun i => (l.take (i + 1)).sum)

/-- Helper scan for `specLargestPrefixBelow`. -/
def largestBelowAux (target : ℚ) : ℕ → ℕ × ℚ → List ℚ → ℕ × ℚ
  | _, best, [] => best
  | idx, best, s :: rest =>
    largestBelowAux target (idx + 1) (if s < target then (idx + 1, s) else best) rest

/-- Spec-side search: the length of the largest prefix of `sums` whose last
entry is still strictly below `target`, with that entry (`(0, 0)` if no entry
is below `target`). -/
def specLargestPrefixBelow (sums : List ℚ) (target : ℚ) : ℕ × ℚ :=
  largestBelowAux target 0 (0, 0) sums

/-- Spec-side quantile formula of claim C2, for a non-empty histogram with
tracked extremes `m`/`M` and `0 < q < 1`. -/
def specQuantileValue (sq : ℚ → ℚ) (h : Histogram) (m M : ℚ) (q : ℚ) : ℚ :=
  let target := (h.count : ℚ) * q
  let res := specLargestPrefixBelow (specCumSums (specAdjAvgs h.bins)) target
  let lr := specBorderingBins h.bins m M res.1
  let d := target - res.2
  let a := (lr.2.count : ℚ) - (lr.1.count : ℚ)
  if a = 0 then lr.1.value + (lr.2.value - lr.1.value) * d / (lr.1.count : ℚ)
  else
    lr.1.value + (lr.2.value - lr.1.value) *
      ((-(2 * (lr.1.count : ℚ)) + sq ((2 * (lr.1.count : ℚ)) ^ 2 + 8 * a * d)) / (2 * a))

/-- Spec-side upper-bound insertion position: the first position whose
existing element is not less-or-equal to the key under Bin's total order. -/
def specInsertPos (bins : List Bin) (key : Bin) : ℕ :=
  (bins.takeWhile (fun x => decide (Bin.le x key))).length

/-- Spec-side rank estimate of claim C3, for a histogram with tracked
extremes `m`/`M`.  Rounding is round-to-nearest (the shared `rustRound`
model). -/
def specCountLe (h : Histogram) (m M : ℚ) (value : ℚ) : ℕ :=
  if h.count = 0 ∨ value < m then 0
  else if M ≤ value then h.count
  else
    let pos := specInsertPos h.bins (Bin.empty value)
    let countUpToLeft := ((h.bins.take (pos - 1)).map Bin.count).sum
    let lr := specBorderingBins h.bins m M pos
    let between : ℚ :=
      if lr.2.value ≤ lr.1.value then 0
      else
        let prox := (value - lr.1.value) / (lr.2.value - lr.1.value)
        ((lr.1.count : ℚ) +
          ((lr.1.count : ℚ) + ((lr.2.count : ℚ) - (lr.1.count : ℚ)) * prox)) / 2 * prox
    (rustRound ((countUpToLeft : ℚ) + (lr.1.count : ℚ) / 2 + between)).toNat

/-- Combination of two optional tracked minima (an absent extreme contributes
nothing). -/
def combineMin : Option ℚ → Option ℚ → Option ℚ
  | none, b => b
  | some a, none => some a
  | some a, some b => some (min a b)

/-- Combination of two optional tracked maxima. -/
def combineMax : Option ℚ → Option ℚ → Option ℚ
  | none, b => b
  | some a, none => some a
  | some a, some b => some (max a b)

/-- Sum of the counts of a bin list. -/
def sumCounts (l : List Bin) : ℕ := (l.map Bin.count).sum

/-- Every bin of the histogram has a positive count. -/
def PosCounts (h : Histogram) : Prop := ∀ b ∈ h.bins, 1 ≤ b.count

/-- Concrete reachable state: `new(2)` followed by three inserts of the value
`1` (the third insert merges the two leftmost unit bins).  Its bin list is
sorted by value but not by Bin's full total order. -/
def histThreeOnes : Histogram := ⟨2, [⟨1, 2⟩, ⟨1, 1⟩], some 1, some 1⟩

/-- Concrete reachable state: `new(1)` followed by inserting the zero-count
bin `Bin(42.0, 0)`; its total count is `0` although a bin is present. -/
def histZeroBin : Histogram := ⟨1, [⟨42, 0⟩], some 42, some 42⟩

/-- The trapezoidal interpolation term of
`Histogram::count_less_than_or_equal_to`, abstracted over the bordering bin
data: `0` when the bordering values are not strictly increasing, and otherwise
`(L + interpolated_count) / 2 * proximity`. -/
def trap (L R lv rv v : ℚ) : ℚ :=
  if rv ≤ lv then 0
  else (L + (L + (R - L) * ((v - lv) / (rv - lv)))) / 2 * ((v - lv) / (rv - lv))

/-- The count mass of the first `k` bins, as a rational. -/
def SQ (bins : List Bin) (k : ℕ) : ℚ := (((bins.take k).map Bin.count).sum : ℕ)

/-- The count mass of the first `p` bins plus half the count of bin `p`
(`0` past the end): the rank estimate at the value of bin `p`. -/
def cumHalf (bins : List Bin) (p : ℕ) : ℚ :=
  SQ bins p + ((bins.getD p dBin).count : ℚ) / 2

/-- The exact rational rank estimate of the interior branch of
`Histogram::count_less_than_or_equal_to`, before rounding. -/
def specMid (bins : List Bin) (m M v : ℚ) : ℚ :=
  SQ bins (specInsertPos bins (Bin.empty v) - 1) +
    ((specBorderingBins bins m M (specInsertPos bins (Bin.empty v))).1.count : ℚ) / 2 +
    trap ((specBorderingBins bins m M (specInsertPos bins (Bin.empty v))).1.count : ℚ)
      ((specBorderingBins bins m M (specInsertPos bins (Bin.empty v))).2.count : ℚ)
      (specBorderingBins bins m M (specInsertPos bins (Bin.empty v))).1.value
      (specBorderingBins bins m M (specInsertPos bins (Bin.empty v))).2.value v

theorem binLe_refl (a : Bin) : Bin.le a a := Or.inr ⟨rfl, le_rfl⟩

theorem binLe_trans {a b c : Bin} (h1 : Bin.le a b) (h2 : Bin.le b c) : Bin.le a c := by
  rcases h1 with h1 | ⟨e1, c1⟩ <;> rcases h2 with h2 | ⟨e2, c2⟩
  · exact Or.inl (lt_trans h1 h2)
  · exact Or.inl (e2 ▸ h1)
  · exact Or.inl (e1 ▸ h2)
  · exact Or.inr ⟨e1.trans e2, Nat.le_trans c1 c2⟩

theorem binLe_total (a b : Bin) : Bin.le a b ∨ Bin.le b a := by
  rcases lt_trichotomy a.value b.value with h | h | h
  · exact Or.inl (Or.inl h)
  · rcases Nat.le_total a.count b.count with hc | hc
    · exact Or.inl (Or.inr ⟨h, hc⟩)
    · exact Or.inr (Or.inr ⟨h.symm, hc⟩)
  · exact Or.inr (Or.inl h)

theorem binLe_value_le {a b : Bin} (h : Bin.le a b) : a.value ≤ b.value := by
  rcases h with h | ⟨e, _⟩
  · exact le_of_lt h
  · exact le_of_eq e

theorem binNotLe_value_le {a b : Bin} (h : ¬ Bin.le a b) : b.value ≤ a.value := by
  rcases le_or_lt b.value a.value with hv | hv
  · exact hv
  · exact absurd (Or.inl hv) h

theorem takeWhile_len_le {α : Type} (p : α → Bool) :
    ∀ l : List α, (l.takeWhile p).length ≤ l.length := by
  intro l
  induction l with
  | nil => simp
  | cons x xs ih =>
    rw [List.takeWhile_cons]
    split
    · simpa using Nat.succ_le_succ ih
    · simp

theorem takeWhile_getD_true {α : Type} (p : α → Bool) (d : α) :
    ∀ (l : List α) (i : ℕ), i < (l.takeWhile p).length → p (l.getD i d) = true := by
  intro l
  induction l with
  | nil => simp
  | cons x xs ih =>
    intro i hi
    rw [List.takeWhile_cons] at hi
    by_cases hp : p x = true
    · simp only [hp, if_true] at hi
      cases i with
      | zero => simpa using hp
      | succ j =>
        simp only [List.length_cons, Nat.succ_lt_succ_iff] at hi
        simpa using ih j hi
    · simp [hp] at hi

theorem takeWhile_getD_false {α : Type} (p : α → Bool) (d : α) :
    ∀ l : List α, (l.takeWhile p).length < l.length →
      p (l.getD (l.takeWhile p).length d) = false := by
  intro l
  induction l with
  | nil => simp
  | cons x xs ih =>
    intro hlt
    rw [List.takeWhile_cons]
    rw [List.takeWhile_cons] at hlt
    by_cases hp : p x = true
    · simp only [hp, if_true] at hlt ⊢
      simp only [List.length_cons, Nat.succ_lt_succ_iff] at hlt
      simpa using ih hlt
    · simp only [Bool.not_eq_true] at hp
      simp [hp]

theorem ubLoop_spec (bins : List Bin) (key : Bin) :
    ∀ (fuel base size : ℕ), 1 ≤ size → size ≤ fuel + 1 → base + size ≤ bins.length →
    ∀ r, r = (if Bin.le (bins.getD (ubLoop bins key fuel base size) dBin) key
              then ubLoop bins key fuel base size + 1
              else ubLoop bins key fuel base size) →
    base ≤ r ∧ r ≤ base + size ∧
      (r = base ∨ (1 ≤ r ∧ Bin.le (bins.getD (r - 1) dBin) key)) ∧
      (r = base + size ∨ ¬ Bin.le (bins.getD r dBin) key) := by
  intro fuel
  induction fuel with
  | zero =>
    intro base size h1 h2 _h3 r hr
    have hsz : size = 1 := by omega
    subst hsz
    simp only [ubLoop] at hr
    by_cases hP : Bin.le (bins.getD base dBin) key
    · rw [if_pos hP] at hr
      subst hr
      refine ⟨by omega, by omega, Or.inr ⟨by omega, ?_⟩, Or.inl (by omega)⟩
      simpa using hP
    · rw [if_neg hP] at hr
      subst hr
      exact ⟨le_refl _, by omega, Or.inl rfl, Or.inr hP⟩
  | succ fuel ih =>
    intro base size h1 h2 h3 r hr
    by_cases hs : size ≤ 1
    · have hsz : size = 1 := by omega
      subst hsz
      simp only [ubLoop, if_pos (le_refl 1)] at hr
      by_cases hP : Bin.le (bins.getD base dBin) key
      · rw [if_pos hP] at hr
        subst hr
        refine ⟨by omega, by omega, Or.inr ⟨by omega, ?_⟩, Or.inl (by omega)⟩
        simpa using hP
      · rw [if_neg hP] at hr
        subst hr
        exact ⟨le_refl _, by omega, Or.inl rfl, Or.inr hP⟩
    · have hsz2 : 2 ≤ size := by omega
      have hhalf1 : 1 ≤ size / 2 := by omega
      have hhalflt : size / 2 < size := by omega
      simp only [ubLoop, if_neg hs] at hr
      by_cases hP : Bin.le (bins.getD (base + size / 2) dBin) key
      · rw [if_pos hP] at hr
        have hsub := ih (base + size / 2) (size - size / 2) (by omega) (by omega) (by omega) r hr
        obtain ⟨A, B, C, D⟩ := hsub
        have htop : base + size / 2 + (size - size / 2) = base + size := by omega
        refine ⟨by omega, by omega, ?_, ?_⟩
        · rcases C with hC | hC
          · rcases D with hD | hD
            · omega
            · rw [hC] at hD
              exact absurd hP hD
          · exact Or.inr hC
        · rcases D with hD | hD
          · exact Or.inl (by omega)
          · exact Or.inr hD
      · rw [if_neg hP] at hr
        have hsub := ih base (size - size / 2) (by omega) (by omega) (by omega) r hr
        obtain ⟨A, B, C, D⟩ := hsub
        refine ⟨A, by omega, C, ?_⟩
        · rcases D with hD | hD
          · have : size - size / 2 = size / 2 ∨ size - size / 2 = size / 2 + 1 := by omega
            rcases this with he | he
            · rw [he] at hD
              exact Or.inr (hD ▸ hP)
            · rw [he] at hD
              rcases C with hC | ⟨hC1, hC2⟩
              · omega
              · have : r - 1 = base + size / 2 := by omega
                rw [this] at hC2
                exact absurd hC2 hP
          · exact Or.inr hD

theorem upperBound_spec (bins : List Bin) (key : Bin) :
    upperBound bins key ≤ bins.length ∧
    (1 ≤ upperBound bins key →
      Bin.le (bins.getD (upperBound bins key - 1) dBin) key) ∧
    (upperBound bins key < bins.length →
      ¬ Bin.le (bins.getD (upperBound bins key) dBin) key) := by
  by_cases h : bins.length = 0
  · simp [upperBound, h]
  · have hub : upperBound bins key =
        (if Bin.le (bins.getD (ubLoop bins key bins.length 0 bins.length) dBin) key
         then ubLoop bins key bins.length 0 bins.length + 1
         else ubLoop bins key bins.length 0 bins.length) := by
      simp only [upperBound, if_neg h]
    have hspec := ubLoop_spec bins key bins.length 0 bins.length (by omega) (by omega)
      (by omega) (upperBound bins key) hub
    obtain ⟨_, B, C, D⟩ := hspec
    refine ⟨by omega, ?_, ?_⟩
    · intro h1
      rcases C with hC | ⟨_, hC⟩
      · omega
      · exact hC
    · intro hlt
      rcases D with hD | hD
      · omega
      · exact hD

theorem pairwise_getD {R : Bin → Bin → Prop} {l : List Bin} (h : l.Pairwise R)
    {i j : ℕ} (hij : i < j) (hj : j < l.length) :
    R (l.getD i dBin) (l.getD j dBin) := by
  rw [List.pairwise_iff_getElem] at h
  rw [List.getD_eq_getElem l dBin (by omega), List.getD_eq_getElem l dBin hj]
  exact h i j (by omega) hj hij

theorem vsorted_getD {l : List Bin} (h : VSorted l) {i j : ℕ} (hij : i ≤ j)
    (hj : j < l.length) : (l.getD i dBin).value ≤ (l.getD j dBin).value := by
  rcases Nat.lt_or_ge i j with hlt | hge
  · exact pairwise_getD h hlt hj
  · have : i = j := by omega
    rw [this]

theorem zerosFirst_getD {l : List Bin} (h : ZerosFirst l) {i j : ℕ} (hij : i < j)
    (hj : j < l.length)
    (hv : (l.getD i dBin).value = (l.getD j dBin).value)
    (hc : 1 ≤ (l.getD i dBin).count) : 1 ≤ (l.getD j dBin).count :=
  pairwise_getD h hij hj hv hc

theorem mem_take_getD {l : List Bin} {i : ℕ} {a : Bin} (ha : a ∈ l.take i) :
    ∃ j, j < i ∧ j < l.length ∧ l.getD j dBin = a := by
  rw [List.mem_iff_getElem] at ha
  obtain ⟨n, hn, he⟩ := ha
  have hlen : n < i ∧ n < l.length := by
    have := hn
    rw [List.length_take] at this
    omega
  refine ⟨n, hlen.1, hlen.2, ?_⟩
  rw [List.getD_eq_getElem l dBin hlen.2, ← he, List.getElem_take]

theorem mem_drop_getD {l : List Bin} {i : ℕ} {a : Bin} (ha : a ∈ l.drop i) :
    ∃ j, i ≤ j ∧ j < l.length ∧ l.getD j dBin = a := by
  rw [List.mem_iff_getElem] at ha
  obtain ⟨n, hn, he⟩ := ha
  have hlen : i + n < l.length := by
    have := hn
    rw [List.length_drop] at this
    omega
  refine ⟨i + n, by omega, hlen, ?_⟩
  rw [List.getD_eq_getElem l dBin hlen, ← he, List.getElem_drop]

theorem insertIdx_eq_append (b : Bin) :
    ∀ (i : ℕ) (l : List Bin), i ≤ l.length →
      List.insertIdx i b l = l.take i ++ b :: l.drop i := by
  intro i
  induction i with
  | zero => intro l _; simp
  | succ j ih =>
    intro l hl
    cases l with
    | nil => simp at hl
    | cons x xs =>
      rw [List.insertIdx_succ_cons]
      have := ih xs (by simpa using Nat.succ_le_succ_iff.mp hl)
      simp [this]

theorem pairwise_insertIdx {R : Bin → Bin → Prop} {l : List Bin} {i : ℕ} {b : Bin}
    (hi : i ≤ l.length) (h : l.Pairwise R)
    (hbefore : ∀ j, j < i → j < l.length → R (l.getD j dBin) b)
    (hafter : ∀ j, i ≤ j → j < l.length → R b (l.getD j dBin)) :
    (List.insertIdx i b l).Pairwise R := by
  rw [insertIdx_eq_append b i l hi]
  have hsplit : List.Pairwise R (l.take i ++ l.drop i) := by
    rw [List.take_append_drop]; exact h
  rw [List.pairwise_append] at hsplit
  obtain ⟨h1, h2, h3⟩ := hsplit
  rw [List.pairwise_append]
  refine ⟨h1, ?_, ?_⟩
  · rw [List.pairwise_cons]
    refine ⟨?_, h2⟩
    intro c hc
    obtain ⟨j, hj1, hj2, hj3⟩ := mem_drop_getD hc
    rw [← hj3]
    exact hafter j hj1 hj2
  · intro a ha c hc
    rcases List.mem_cons.mp hc with hcb | hcd
    · obtain ⟨j, hj1, hj2, hj3⟩ := mem_take_getD ha
      rw [← hj3, hcb]
      exact hbefore j hj1 hj2
    · exact h3 a ha c hcd

theorem sumCounts_insertIdx {l : List Bin} {i : ℕ} {b : Bin} (hi : i ≤ l.length) :
    sumCounts (List.insertIdx i b l) = sumCounts l + b.count := by
  rw [insertIdx_eq_append b i l hi]
  have h0 : sumCounts l = sumCounts (l.take i) + sumCounts (l.drop i) := by
    conv_lhs => rw [← List.take_append_drop i l]
    unfold sumCounts
    rw [List.map_append, List.sum_append]
  unfold sumCounts at h0 ⊢
  rw [List.map_append, List.sum_append]
  simp only [List.map_cons, List.sum_cons]
  omega

theorem vsorted_insertIdx_upperBound {l : List Bin} (key : Bin) (h : VSorted l) :
    VSorted (List.insertIdx (upperBound l key) key l) := by
  obtain ⟨hle, hleft, hright⟩ := upperBound_spec l key
  refine pairwise_insertIdx hle h ?_ ?_
  · intro j hj hjl
    have h1 : 1 ≤ upperBound l key := by omega
    have hP := hleft h1
    have hv : (l.getD j dBin).value ≤ (l.getD (upperBound l key - 1) dBin).value :=
      vsorted_getD h (by omega) (by omega)
    exact le_trans hv (binLe_value_le hP)
  · intro j hj hjl
    have hu : upperBound l key < l.length := by omega
    have hP := hright hu
    have hv : (l.getD (upperBound l key) dBin).value ≤ (l.getD j dBin).value :=
      vsorted_getD h hj hjl
    exact le_trans (binNotLe_value_le hP) hv

theorem zerosFirst_insertIdx_upperBound {l : List Bin} (key : Bin) (hs : VSorted l)
    (hz : ZerosFirst l) : ZerosFirst (List.insertIdx (upperBound l key) key l) := by
  obtain ⟨hle, hleft, hright⟩ := upperBound_spec l key
  refine pairwise_insertIdx hle hz ?_ ?_
  · intro j hj hjl hv hc
    have h1 : 1 ≤ upperBound l key := by omega
    have hP := hleft h1
    have hvchain : (l.getD j dBin).value ≤ (l.getD (upperBound l key - 1) dBin).value :=
      vsorted_getD hs (by omega) (by omega)
    have hvu : (l.getD (upperBound l key - 1) dBin).value = key.value := by
      have hub : (l.getD (upperBound l key - 1) dBin).value ≤ key.value := binLe_value_le hP
      have hlb : key.value ≤ (l.getD (upperBound l key - 1) dBin).value := by
        rw [← hv]; exact hvchain
      exact le_antisymm hub hlb
    have hcnt : (l.getD (upperBound l key - 1) dBin).count ≤ key.count := by
      rcases hP with hlt | ⟨_, hcnt⟩
      · rw [hvu] at hlt; exact absurd hlt (lt_irrefl _)
      · exact hcnt
    rcases Nat.lt_or_ge j (upperBound l key - 1) with hjlt | hjge
    · have hcu : 1 ≤ (l.getD (upperBound l key - 1) dBin).count :=
        zerosFirst_getD hz hjlt (by omega) (by rw [hv, hvu]) hc
      omega
    · have hje : j = upperBound l key - 1 := by omega
      rw [hje] at hc
      omega
  · intro j hj hjl hv hc
    have hu : upperBound l key < l.length := by omega
    have hP := hright hu
    have hnle : ¬ ((l.getD (upperBound l key) dBin).value < key.value ∨
        ((l.getD (upperBound l key) dBin).value = key.value ∧
          (l.getD (upperBound l key) dBin).count ≤ key.count)) := hP
    push_neg at hnle
    obtain ⟨hge, himp⟩ := hnle
    have hvj : (l.getD (upperBound l key) dBin).value ≤ (l.getD j dBin).value :=
      vsorted_getD hs hj hjl
    have hequ : (l.getD (upperBound l key) dBin).value = key.value := by
      refine le_antisymm ?_ hge
      rw [hv]
      exact hvj
    have hcu : 1 ≤ (l.getD (upperBound l key) dBin).count := by
      have := himp hequ
      omega
    rcases Nat.lt_or_ge (upperBound l key) j with hlt | hge2
    · exact zerosFirst_getD hz hlt hjl (by rw [hequ, hv]) hcu
    · have hje : j = upperBound l key := by omega
      rw [hje]
      have := himp hequ
      omega

theorem upperBound_eq_of_partitioned (bins : List Bin) (key : Bin)
    (hpart : ∀ i j, i ≤ j → j < bins.length →
      Bin.le (bins.getD j dBin) key → Bin.le (bins.getD i dBin) key) :
    upperBound bins key = specInsertPos bins key := by
  obtain ⟨hle, hleft, hright⟩ := upperBound_spec bins key
  have htle : specInsertPos bins key ≤ bins.length := takeWhile_len_le _ bins
  have htP : ∀ i, i < specInsertPos bins key → Bin.le (bins.getD i dBin) key := by
    intro i hi
    have := takeWhile_getD_true (fun x => decide (Bin.le x key)) dBin bins i hi
    exact of_decide_eq_true this
  have htF : specInsertPos bins key < bins.length →
      ¬ Bin.le (bins.getD (specInsertPos bins key) dBin) key := by
    intro hlen
    have := takeWhile_getD_false (fun x => decide (Bin.le x key)) dBin bins hlen
    simpa using this
  rcases lt_trichotomy (upperBound bins key) (specInsertPos bins key) with hlt | heq | hgt
  · have hP : Bin.le (bins.getD (upperBound bins key) dBin) key := htP _ hlt
    exact absurd hP (hright (by omega))
  · exact heq
  · have h1 : 1 ≤ upperBound bins key := by omega
    have hP := hleft h1
    have hPt : Bin.le (bins.getD (specInsertPos bins key) dBin) key :=
      hpart _ (upperBound bins key - 1) (by omega) (by omega) hP
    exact absurd hPt (htF (by omega))

theorem upperBound_eq_of_sorted {bins : List Bin} (key : Bin)
    (h : bins.Pairwise Bin.le) : upperBound bins key = specInsertPos bins key := by
  refine upperBound_eq_of_partitioned bins key ?_
  intro i j hij hj hle
  rcases Nat.lt_or_ge i j with hlt | hge
  · exact binLe_trans (pairwise_getD h hlt hj) hle
  · have : i = j := by omega
    rw [this]; exact hle

theorem upperBound_probe_eq {bins : List Bin} (v : ℚ) (hs : VSorted bins)
    (hz : ZerosFirst bins) :
    upperBound bins (Bin.empty v) = specInsertPos bins (Bin.empty v) := by
  refine upperBound_eq_of_partitioned bins (Bin.empty v) ?_
  intro i j hij hj hle
  rcases Nat.lt_or_ge i j with hlt | hge
  · have hvij : (bins.getD i dBin).value ≤ (bins.getD j dBin).value :=
      vsorted_getD hs (by omega) hj
    rcases hle with hlt2 | ⟨heq, hcnt⟩
    · exact Or.inl (lt_of_le_of_lt hvij hlt2)
    · rcases lt_or_eq_of_le hvij with hvlt | hveq
      · exact Or.inl (by rw [← heq]; exact hvlt)
      · refine Or.inr ⟨by rw [hveq, heq], ?_⟩
        by_contra hpos
        have hcj : 1 ≤ (bins.getD j dBin).count :=
          zerosFirst_getD hz hlt hj hveq (by omega)
        simp only [Bin.empty] at hcnt
        omega
  · have : i = j := by omega
    rw [this]; exact hle

theorem keyLt_irrefl (a : ℚ × ℕ) : ¬ keyLt a a := by
  intro h
  rcases h with h | ⟨_, h⟩
  · exact absurd h (lt_irrefl _)
  · exact absurd h (lt_irrefl _)

theorem keyLt_trans {a b c : ℚ × ℕ} (h1 : keyLt a b) (h2 : keyLt b c) : keyLt a c := by
  rcases h1 with h1 | ⟨e1, c1⟩ <;> rcases h2 with h2 | ⟨e2, c2⟩
  · exact Or.inl (lt_trans h1 h2)
  · exact Or.inl (e2 ▸ h1)
  · exact Or.inl (e1 ▸ h2)
  · exact Or.inr ⟨e1.trans e2, Nat.lt_trans c1 c2⟩

theorem keyLt_total (a b : ℚ × ℕ) : keyLt a b ∨ a = b ∨ keyLt b a := by
  rcases lt_trichotomy a.1 b.1 with h | h | h
  · exact Or.inl (Or.inl h)
  · rcases lt_trichotomy a.2 b.2 with hc | hc | hc
    · exact Or.inl (Or.inr ⟨h, hc⟩)
    · exact Or.inr (Or.inl (Prod.ext h hc))
    · exact Or.inr (Or.inr (Or.inr ⟨h.symm, hc⟩))
  · exact Or.inr (Or.inr (Or.inl h))

theorem keyLt_asymm {a b : ℚ × ℕ} (h : keyLt a b) : ¬ keyLt b a := by
  intro h2
  exact keyLt_irrefl a (keyLt_trans h h2)

theorem foldl_minByKey_spec (key : ℕ → ℚ × ℕ) :
    ∀ (l : List ℕ) (a : ℕ), List.Pairwise (· < ·) (a :: l) →
    ∀ r, r = l.foldl (fun acc i => if keyLt (key i) (key acc) then i else acc) a →
      (r = a ∨ r ∈ l) ∧ (key r = key a → r = a) ∧ ¬ keyLt (key a) (key r) ∧
      (∀ j ∈ l, keyLt (key r) (key j) ∨ (key r = key j ∧ r ≤ j)) := by
  intro l
  induction l with
  | nil =>
    intro a _ r hr
    simp only [List.foldl_nil] at hr
    subst hr
    exact ⟨Or.inl rfl, fun _ => rfl, keyLt_irrefl _, by simp⟩
  | cons i rest ih =>
    intro a hsort r hr
    simp only [List.foldl_cons] at hr
    have hai : a < i := by
      rw [List.pairwise_cons] at hsort
      exact hsort.1 i (by simp)
    have hsort2 : List.Pairwise (· < ·)
        ((if keyLt (key i) (key a) then i else a) :: rest) := by
      rw [List.pairwise_cons] at hsort ⊢
      obtain ⟨h1, h2⟩ := hsort
      rw [List.pairwise_cons] at h2
      obtain ⟨h3, h4⟩ := h2
      refine ⟨?_, h4⟩
      intro x hx
      split
      · exact h3 x hx
      · exact h1 x (by simp [hx])
    have hIH := ih (if keyLt (key i) (key a) then i else a) hsort2 r hr
    obtain ⟨hi1, hi2, hi3, hi4⟩ := hIH
    by_cases hcmp : keyLt (key i) (key a)
    · rw [if_pos hcmp] at hi1 hi2 hi3
      refine ⟨?_, ?_, ?_, ?_⟩
      · rcases hi1 with h | h
        · exact Or.inr (by simp [h])
        · exact Or.inr (by simp [h])
      · intro heq
        exfalso
        rw [heq] at hi3
        exact hi3 hcmp
      · intro hcon
        exact hi3 (keyLt_trans hcmp hcon)
      · intro j hj
        rcases List.mem_cons.mp hj with hji | hjr
        · subst hji
          rcases keyLt_total (key r) (key j) with h | h | h
          · exact Or.inl h
          · exact Or.inr ⟨h, le_of_eq (hi2 h)⟩
          · exact absurd h hi3
        · exact hi4 j hjr
    · rw [if_neg hcmp] at hi1 hi2 hi3
      refine ⟨?_, hi2, hi3, ?_⟩
      · rcases hi1 with h | h
        · exact Or.inl h
        · exact Or.inr (by simp [h])
      · intro j hj
        rcases List.mem_cons.mp hj with hji | hjr
        · subst hji
          rcases keyLt_total (key r) (key j) with h | h | h
          · exact Or.inl h
          · refine Or.inr ⟨h, ?_⟩
            have hnra : ¬ keyLt (key r) (key a) := by
              rw [h]; exact hcmp
            have hra : key r = key a := by
              rcases keyLt_total (key r) (key a) with h2 | h2 | h2
              · exact absurd h2 hnra
              · exact h2
              · exact absurd h2 hi3
            have := hi2 hra
            omega
          · exfalso
            rcases keyLt_total (key r) (key a) with h2 | h2 | h2
            · exact hcmp (keyLt_trans h h2)
            · rw [h2] at h
              exact hcmp h
            · exact hi3 h2
        · exact hi4 j hjr

theorem minByKeyFirst_spec {l : List ℕ} {key : ℕ → ℚ × ℕ}
    (hsort : List.Pairwise (· < ·) l) {r : ℕ}
    (hr : minByKeyFirst l key = some r) :
    r ∈ l ∧ ∀ j ∈ l, keyLt (key r) (key j) ∨ (key r = key j ∧ r ≤ j) := by
  cases l with
  | nil => simp [minByKeyFirst] at hr
  | cons x xs =>
    simp only [minByKeyFirst, Option.some.injEq] at hr
    have := foldl_minByKey_spec key xs x hsort r hr.symm
    obtain ⟨h1, h2, h3, h4⟩ := this
    constructor
    · rcases h1 with h | h
      · simp [h]
      · simp [h]
    · intro j hj
      rcases List.mem_cons.mp hj with hjx | hjxs
      · subst hjx
        rcases keyLt_total (key r) (key j) with h | h | h
        · exact Or.inl h
        · refine Or.inr ⟨h, ?_⟩
          have := h2 h
          omega
        · exact absurd h h3
      · exact h4 j hjxs

theorem getD_mem {l : List Bin} {i : ℕ} (h : i < l.length) : l.getD i dBin ∈ l := by
  rw [List.getD_eq_getElem l dBin h]
  exact List.getElem_mem h

theorem findClosestBins_eq_some {bins : List Bin} {p : ℕ × ℕ}
    (h : findClosestBins bins = some p) :
    ∃ r, p = (r - 1, r) ∧ 1 ≤ r ∧ r < bins.length ∧
      (∀ j, 1 ≤ j → j < bins.length →
        keyLt (pairKey bins r) (pairKey bins j) ∨
          (pairKey bins r = pairKey bins j ∧ r ≤ j)) := by
  unfold findClosestBins at h
  rcases hm : minByKeyFirst (List.range' 1 (bins.length - 1)) (pairKey bins) with _ | r
  · rw [hm] at h; simp at h
  · rw [hm] at h
    simp only [Option.some.injEq] at h
    have hspec := minByKeyFirst_spec (List.pairwise_lt_range' 1 (bins.length - 1)) hm
    obtain ⟨hmem, hmin⟩ := hspec
    rw [List.mem_range'] at hmem
    obtain ⟨i, hi, hri⟩ := hmem
    refine ⟨r, h.symm, by omega, by omega, ?_⟩
    intro j hj1 hj2
    have hjmem : j ∈ List.range' 1 (bins.length - 1) := by
      rw [List.mem_range']
      exact ⟨j - 1, by omega, by omega⟩
    exact hmin j hjmem

theorem findClosestBins_some_of_two {bins : List Bin} (h2 : 2 ≤ bins.length) :
    ∃ p, findClosestBins bins = some p := by
  unfold findClosestBins
  rcases hm : minByKeyFirst (List.range' 1 (bins.length - 1)) (pairKey bins) with _ | r
  · exfalso
    have : List.range' 1 (bins.length - 1) ≠ [] := by
      rw [Ne, List.range'_eq_nil]
      omega
    rcases he : List.range' 1 (bins.length - 1) with _ | ⟨x, xs⟩
    · exact this he
    · rw [he] at hm
      simp [minByKeyFirst] at hm
  · exact ⟨(r - 1, r), rfl⟩

theorem merge_facts {x y m : Bin} (h : Bin.merge x y = some m) :
    m.count = x.count + y.count ∧ 1 ≤ m.count ∧
    m.value = (x.value * (x.count : ℚ) + y.value * (y.count : ℚ)) /
      ((x.count : ℚ) + (y.count : ℚ)) := by
  unfold Bin.merge at h
  simp only at h
  by_cases hc : x.count + y.count = 0
  · rw [if_pos hc] at h
    simp at h
  · rw [if_neg hc] at h
    simp only [Option.some.injEq] at h
    rw [← h]
    refine ⟨rfl, ?_, ?_⟩
    · show 1 ≤ x.count + y.count
      omega
    · show (x.value * (x.count : ℚ) + y.value * (y.count : ℚ)) / ((x.count + y.count : ℕ) : ℚ) =
        (x.value * (x.count : ℚ) + y.value * (y.count : ℚ)) / ((x.count : ℚ) + (y.count : ℚ))
      push_cast
      ring_nf

theorem merge_value_between {x y m : Bin} (h : Bin.merge x y = some m)
    (hxy : x.value ≤ y.value) : x.value ≤ m.value ∧ m.value ≤ y.value := by
  obtain ⟨hc, hc1, hv⟩ := merge_facts h
  have hpos : (0 : ℚ) < (x.count : ℚ) + (y.count : ℚ) := by
    have h01 : 1 ≤ x.count + y.count := by omega
    have : (1 : ℚ) ≤ ((x.count + y.count : ℕ) : ℚ) := by exact_mod_cast h01
    push_cast at this
    linarith
  constructor
  · rw [hv, le_div_iff₀ hpos]
    have h1 : x.value * (y.count : ℚ) ≤ y.value * (y.count : ℚ) :=
      mul_le_mul_of_nonneg_right hxy (by positivity)
    nlinarith
  · rw [hv, div_le_iff₀ hpos]
    have h1 : x.value * (x.count : ℚ) ≤ y.value * (x.count : ℚ) :=
      mul_le_mul_of_nonneg_right hxy (by positivity)
    nlinarith

theorem merge_value_left_of_zero {x y m : Bin} (h : Bin.merge x y = some m)
    (hy : y.count = 0) : m.value = x.value := by
  obtain ⟨hc, hc1, hv⟩ := merge_facts h
  have hx : 1 ≤ x.count := by omega
  have hxne : ((x.count : ℚ)) ≠ 0 := by
    have : x.count ≠ 0 := by omega
    exact_mod_cast this
  rw [hv, hy]
  push_cast
  field_simp

theorem list_decompose_two {l : List Bin} {i : ℕ} (h : i + 1 < l.length) :
    l = l.take i ++ (l.getD i dBin) :: (l.getD (i + 1) dBin) :: l.drop (i + 2) := by
  conv_lhs => rw [← List.take_append_drop i l]
  congr 1
  rw [List.drop_eq_getElem_cons (show i < l.length by omega)]
  rw [List.getD_eq_getElem l dBin (show i < l.length by omega)]
  congr 1
  rw [List.drop_eq_getElem_cons (show i + 1 < l.length from h)]
  rw [List.getD_eq_getElem l dBin h]

theorem set_eraseIdx_eq (m : Bin) :
    ∀ (i : ℕ) (l : List Bin), i + 1 < l.length →
      (l.set i m).eraseIdx (i + 1) = l.take i ++ m :: l.drop (i + 2) := by
  intro i
  induction i with
  | zero =>
    intro l hl
    cases l with
    | nil => simp at hl
    | cons x xs =>
      cases xs with
      | nil => simp at hl
      | cons y ys => simp [List.eraseIdx]
  | succ j ih =>
    intro l hl
    cases l with
    | nil => simp at hl
    | cons x xs =>
      rw [List.set_cons_succ, List.eraseIdx_cons_succ, ih xs (by simpa using hl)]
      simp [List.take_succ_cons]

theorem vsorted_mergeStep {l : List Bin} {i : ℕ} {m : Bin} (hlen : i + 1 < l.length)
    (hs : VSorted l)
    (hm : Bin.merge (l.getD i dBin) (l.getD (i + 1) dBin) = some m) :
    VSorted (l.take i ++ m :: l.drop (i + 2)) := by
  have hxy : (l.getD i dBin).value ≤ (l.getD (i + 1) dBin).value :=
    vsorted_getD hs (by omega) hlen
  obtain ⟨hx, hy⟩ := merge_value_between hm hxy
  unfold VSorted at hs ⊢
  have hs2 : List.Pairwise (fun a b => a.value ≤ b.value)
      (l.take i ++ (l.getD i dBin) :: (l.getD (i + 1) dBin) :: l.drop (i + 2)) := by
    rw [← list_decompose_two hlen]
    exact hs
  rw [List.pairwise_append] at hs2
  obtain ⟨h1, h2, h3⟩ := hs2
  rw [List.pairwise_cons] at h2
  obtain ⟨hxall, h2b⟩ := h2
  rw [List.pairwise_cons] at h2b
  obtain ⟨hyall, h2c⟩ := h2b
  rw [List.pairwise_append]
  refine ⟨h1, ?_, ?_⟩
  · rw [List.pairwise_cons]
    refine ⟨?_, h2c⟩
    intro c hc
    exact le_trans hy (hyall c hc)
  · intro a ha c hc
    rcases List.mem_cons.mp hc with rfl | hcd
    · exact le_trans (h3 a ha (l.getD i dBin) (by simp)) hx
    · exact h3 a ha c (by simp [hcd])

theorem zerosFirst_mergeStep {l : List Bin} {i : ℕ} {m : Bin} (hlen : i + 1 < l.length)
    (hs : VSorted l) (hz : ZerosFirst l)
    (hm : Bin.merge (l.getD i dBin) (l.getD (i + 1) dBin) = some m) :
    ZerosFirst (l.take i ++ m :: l.drop (i + 2)) := by
  have hxy : (l.getD i dBin).value ≤ (l.getD (i + 1) dBin).value :=
    vsorted_getD hs (by omega) hlen
  obtain ⟨hx, hy⟩ := merge_value_between hm hxy
  obtain ⟨hcnt, hc1, _⟩ := merge_facts hm
  unfold VSorted at hs
  unfold ZerosFirst at hz ⊢
  have hs2 : List.Pairwise (fun a b => a.value ≤ b.value)
      (l.take i ++ (l.getD i dBin) :: (l.getD (i + 1) dBin) :: l.drop (i + 2)) := by
    rw [← list_decompose_two hlen]
    exact hs
  have hz2 : List.Pairwise (fun a b => a.value = b.value → 1 ≤ a.count → 1 ≤ b.count)
      (l.take i ++ (l.getD i dBin) :: (l.getD (i + 1) dBin) :: l.drop (i + 2)) := by
    rw [← list_decompose_two hlen]
    exact hz
  rw [List.pairwise_append] at hs2 hz2
  obtain ⟨hs1, hsmid, hscross⟩ := hs2
  obtain ⟨hz1, hzmid, hzcross⟩ := hz2
  rw [List.pairwise_cons] at hsmid hzmid
  obtain ⟨hsxall, hsmid2⟩ := hsmid
  obtain ⟨hzxall, hzmid2⟩ := hzmid
  rw [List.pairwise_cons] at hsmid2 hzmid2
  obtain ⟨hsyall, hsrest⟩ := hsmid2
  obtain ⟨hzyall, hzrest⟩ := hzmid2
  rw [List.pairwise_append]
  refine ⟨hz1, ?_, ?_⟩
  · rw [List.pairwise_cons]
    refine ⟨?_, hzrest⟩
    intro c hc hveq _
    have hyc : (l.getD (i + 1) dBin).value ≤ c.value := hsyall c hc
    have hyeq : (l.getD (i + 1) dBin).value = c.value := by
      refine le_antisymm hyc ?_
      rw [← hveq]
      exact hy
    by_cases hy0 : 1 ≤ (l.getD (i + 1) dBin).count
    · exact hzyall c hc hyeq hy0
    · have hy00 : (l.getD (i + 1) dBin).count = 0 := by omega
      have hmx : m.value = (l.getD i dBin).value := merge_value_left_of_zero hm hy00
      have hxc : 1 ≤ (l.getD i dBin).count := by omega
      refine hzxall c (by simp [hc]) ?_ hxc
      rw [← hmx, hveq]
  · intro a ha c hc
    rcases List.mem_cons.mp hc with rfl | hcd
    · intro _ _
      exact hc1
    · exact hzcross a ha c (by simp [hcd])

theorem sumCounts_mergeStep {l : List Bin} {i : ℕ} {m : Bin} (hlen : i + 1 < l.length)
    (hm : Bin.merge (l.getD i dBin) (l.getD (i + 1) dBin) = some m) :
    sumCounts (l.take i ++ m :: l.drop (i + 2)) = sumCounts l := by
  obtain ⟨hc, _, _⟩ := merge_facts hm
  conv_rhs => rw [list_decompose_two hlen]
  unfold sumCounts
  rw [List.map_append, List.sum_append, List.map_append, List.sum_append]
  simp only [List.map_cons, List.sum_cons]
  omega

theorem length_mergeStep {l : List Bin} {i : ℕ} (m : Bin) (hlen : i + 1 < l.length) :
    (l.take i ++ m :: l.drop (i + 2)).length = l.length - 1 := by
  rw [List.length_append, List.length_take, List.length_cons, List.length_drop]
  omega

theorem merge_value_bounds {x y m : Bin} {lo hi : ℚ} (h : Bin.merge x y = some m)
    (hx : lo ≤ x.value ∧ x.value ≤ hi) (hy : lo ≤ y.value ∧ y.value ≤ hi) :
    lo ≤ m.value ∧ m.value ≤ hi := by
  obtain ⟨hc, hc1, hv⟩ := merge_facts h
  have hpos : (0 : ℚ) < (x.count : ℚ) + (y.count : ℚ) := by
    have h01 : 1 ≤ x.count + y.count := by omega
    have h02 : (1 : ℚ) ≤ ((x.count + y.count : ℕ) : ℚ) := by exact_mod_cast h01
    push_cast at h02
    linarith
  have hxc : (0 : ℚ) ≤ (x.count : ℚ) := Nat.cast_nonneg _
  have hyc : (0 : ℚ) ≤ (y.count : ℚ) := Nat.cast_nonneg _
  constructor
  · rw [hv, le_div_iff₀ hpos]
    have h1 := mul_le_mul_of_nonneg_right hx.1 hxc
    have h2 := mul_le_mul_of_nonneg_right hy.1 hyc
    nlinarith
  · rw [hv, div_le_iff₀ hpos]
    have h1 := mul_le_mul_of_nonneg_right hx.2 hxc
    have h2 := mul_le_mul_of_nonneg_right hy.2 hyc
    nlinarith

theorem bounds_mergeStep {l : List Bin} {i : ℕ} {m : Bin} {lo hi : ℚ}
    (hlen : i + 1 < l.length)
    (hm : Bin.merge (l.getD i dBin) (l.getD (i + 1) dBin) = some m)
    (hb : ∀ b ∈ l, lo ≤ b.value ∧ b.value ≤ hi) :
    ∀ b ∈ l.take i ++ m :: l.drop (i + 2), lo ≤ b.value ∧ b.value ≤ hi := by
  intro b hbmem
  rcases List.mem_append.mp hbmem with hbt | hbc
  · exact hb b ((List.take_sublist i l).subset hbt)
  · rcases List.mem_cons.mp hbc with rfl | hbd
    · have hxmem := getD_mem (show i < l.length by omega)
      have hymem := getD_mem hlen
      exact merge_value_bounds hm (hb _ hxmem) (hb _ hymem)
    · exact hb b ((List.drop_sublist _ _).subset hbd)

theorem posCounts_mergeStep {l : List Bin} {i : ℕ} {m : Bin} (_hlen : i + 1 < l.length)
    (hm : Bin.merge (l.getD i dBin) (l.getD (i + 1) dBin) = some m)
    (hp : ∀ b ∈ l, 1 ≤ b.count) :
    ∀ b ∈ l.take i ++ m :: l.drop (i + 2), 1 ≤ b.count := by
  intro b hbmem
  rcases List.mem_append.mp hbmem with hbt | hbc
  · exact hp b ((List.take_sublist i l).subset hbt)
  · rcases List.mem_cons.mp hbc with rfl | hbd
    · exact (merge_facts hm).2.1
    · exact hp b ((List.drop_sublist _ _).subset hbd)

theorem merge_some_of_pos {x y : Bin} (hx : 1 ≤ x.count) : ∃ m, Bin.merge x y = some m := by
  unfold Bin.merge
  simp only
  rw [if_neg (by omega)]
  exact ⟨_, rfl⟩

theorem shrinkLoop_props (size : ℕ) :
    ∀ (fuel : ℕ) (bins out : List Bin), shrinkLoop size fuel bins = some out →
      out.length = min bins.length size ∧
      (bins.length ≤ size → out = bins) ∧
      sumCounts out = sumCounts bins ∧
      (VSorted bins → VSorted out) ∧
      (VSorted bins → ZerosFirst bins → ZerosFirst out) ∧
      (∀ lo hi, (∀ b ∈ bins, lo ≤ b.value ∧ b.value ≤ hi) →
        ∀ b ∈ out, lo ≤ b.value ∧ b.value ≤ hi) ∧
      ((∀ b ∈ bins, 1 ≤ b.count) → ∀ b ∈ out, 1 ≤ b.count) := by
  intro fuel
  induction fuel with
  | zero =>
    intro bins out hout
    unfold shrinkLoop at hout
    split at hout
    · rename_i hle
      simp only [Option.some.injEq] at hout
      subst hout
      refine ⟨by omega, fun _ => rfl, rfl, fun h => h, fun _ h => h, fun _ _ h => h, fun h => h⟩
    · simp at hout
  | succ fuel ih =>
    intro bins out hout
    unfold shrinkLoop at hout
    by_cases hle : bins.length ≤ size
    · rw [if_pos hle] at hout
      simp only [Option.some.injEq] at hout
      subst hout
      refine ⟨by omega, fun _ => rfl, rfl, fun h => h, fun _ h => h, fun _ _ h => h, fun h => h⟩
    · rw [if_neg hle] at hout
      rcases hfc : findClosestBins bins with _ | p
      · rw [hfc] at hout; simp at hout
      · rw [hfc] at hout
        obtain ⟨r, hp, hr1, hr2, _⟩ := findClosestBins_eq_some hfc
        subst hp
        dsimp only at hout
        rcases hmg : Bin.merge (bins.getD (r - 1) dBin) (bins.getD r dBin) with _ | m
        · rw [hmg] at hout; simp at hout
        · rw [hmg] at hout
          dsimp only at hout
          have hre : r = (r - 1) + 1 := by omega
          have hlen2 : (r - 1) + 1 < bins.length := by omega
          have hmg2 : Bin.merge (bins.getD (r - 1) dBin) (bins.getD ((r - 1) + 1) dBin)
              = some m := by rw [← hre]; exact hmg
          have hset : (bins.set (r - 1) m).eraseIdx r =
              bins.take (r - 1) ++ m :: bins.drop ((r - 1) + 2) := by
            rw [hre]
            exact set_eraseIdx_eq m (r - 1) bins hlen2
          rw [hset] at hout
          have hnewlen : (bins.take (r - 1) ++ m :: bins.drop ((r - 1) + 2)).length =
              bins.length - 1 := length_mergeStep m hlen2
          obtain ⟨ih1, _ih2, ih3, ih4, ih5, ih6, ih7⟩ := ih _ out hout
          refine ⟨?_, ?_, ?_, ?_, ?_, ?_, ?_⟩
          · rw [ih1, hnewlen]
            omega
          · intro h
            omega
          · rw [ih3]
            exact sumCounts_mergeStep hlen2 hmg2
          · intro hs
            exact ih4 (vsorted_mergeStep hlen2 hs hmg2)
          · intro hs hz
            exact ih5 (vsorted_mergeStep hlen2 hs hmg2) (zerosFirst_mergeStep hlen2 hs hz hmg2)
          · intro lo hi hb
            exact ih6 lo hi (bounds_mergeStep hlen2 hmg2 hb)
          · intro hpc
            exact ih7 (posCounts_mergeStep hlen2 hmg2 hpc)

theorem shrinkLoop_some_of_posCounts (size : ℕ) (hsize : 1 ≤ size) :
    ∀ (fuel : ℕ) (bins : List Bin), bins.length ≤ fuel → (∀ b ∈ bins, 1 ≤ b.count) →
      ∃ out, shrinkLoop size fuel bins = some out := by
  intro fuel
  induction fuel with
  | zero =>
    intro bins hf _
    have : bins.length = 0 := by omega
    unfold shrinkLoop
    rw [if_pos (by omega)]
    exact ⟨bins, rfl⟩
  | succ fuel ih =>
    intro bins hf hpc
    unfold shrinkLoop
    by_cases hle : bins.length ≤ size
    · rw [if_pos hle]
      exact ⟨bins, rfl⟩
    · rw [if_neg hle]
      have h2 : 2 ≤ bins.length := by omega
      obtain ⟨p, hfc⟩ := findClosestBins_some_of_two h2
      rw [hfc]
      obtain ⟨r, hp, hr1, hr2, _⟩ := findClosestBins_eq_some hfc
      subst hp
      dsimp only
      have hxmem := getD_mem (show r - 1 < bins.length by omega)
      obtain ⟨m, hmg⟩ := merge_some_of_pos (y := bins.getD r dBin) (hpc _ hxmem)
      rw [hmg]
      dsimp only
      have hre : r = (r - 1) + 1 := by omega
      have hlen2 : (r - 1) + 1 < bins.length := by omega
      have hmg2 : Bin.merge (bins.getD (r - 1) dBin) (bins.getD ((r - 1) + 1) dBin)
          = some m := by rw [← hre]; exact hmg
      have hset : (bins.set (r - 1) m).eraseIdx r =
          bins.take (r - 1) ++ m :: bins.drop ((r - 1) + 2) := by
        rw [hre]
        exact set_eraseIdx_eq m (r - 1) bins hlen2
      rw [hset]
      refine ih _ ?_ (posCounts_mergeStep hlen2 hmg2 hpc)
      rw [length_mergeStep m hlen2]
      omega

theorem count_eq_sumCounts (h : Histogram) : h.count = sumCounts h.bins := rfl

theorem trackMinMax_bins (h : Histogram) (v : ℚ) : (h.trackMinMax v).bins = h.bins := rfl

theorem trackMinMax_size (h : Histogram) (v : ℚ) : (h.trackMinMax v).size = h.size := rfl

theorem trackMinMax_min (h : Histogram) (v : ℚ) :
    (h.trackMinMax v).min_value = combineMin h.min_value (some v) := by
  unfold Histogram.trackMinMax combineMin
  cases hm : h.min_value with
  | none => rfl
  | some c =>
    simp only [Option.some.injEq]
    rcases lt_or_ge v c with hlt | hge
    · rw [if_pos hlt, min_eq_right (le_of_lt hlt)]
    · rw [if_neg (not_lt_of_ge hge), min_eq_left hge]

theorem trackMinMax_max (h : Histogram) (v : ℚ) :
    (h.trackMinMax v).max_value = combineMax h.max_value (some v) := by
  unfold Histogram.trackMinMax combineMax
  cases hm : h.max_value with
  | none => rfl
  | some c =>
    simp only [Option.some.injEq]
    rcases lt_or_ge c v with hlt | hge
    · rw [if_pos hlt, max_eq_right (le_of_lt hlt)]
    · rw [if_neg (not_lt_of_ge hge), max_eq_left hge]

theorem insert_unfold {h : Histogram} {b : Bin} {h2 : Histogram}
    (hins : h.insert b = some h2) :
    ∃ bins2, shrink h.size (List.insertIdx (upperBound h.bins b) b h.bins) = some bins2 ∧
      h2 = Histogram.trackMinMax ⟨h.size, bins2, h.min_value, h.max_value⟩ b.value := by
  unfold Histogram.insert at hins
  dsimp only at hins
  rcases hs : shrink h.size (List.insertIdx (upperBound h.bins b) b h.bins) with _ | bins2
  · rw [hs] at hins; simp at hins
  · rw [hs] at hins
    simp only [Option.some.injEq] at hins
    exact ⟨bins2, rfl, hins.symm⟩

theorem insert_min_max {h : Histogram} {b : Bin} {h2 : Histogram}
    (hins : h.insert b = some h2) :
    h2.min_value = combineMin h.min_value (some b.value) ∧
    h2.max_value = combineMax h.max_value (some b.value) ∧
    h2.size = h.size := by
  obtain ⟨bins2, _, he⟩ := insert_unfold hins
  subst he
  exact ⟨trackMinMax_min _ _, trackMinMax_max _ _, rfl⟩

theorem insert_count {h : Histogram} {b : Bin} {h2 : Histogram}
    (hins : h.insert b = some h2) : h2.count = h.count + b.count := by
  obtain ⟨bins2, hshrink, he⟩ := insert_unfold hins
  subst he
  obtain ⟨hle, _, _⟩ := upperBound_spec h.bins b
  obtain ⟨_, _, hsum, _, _, _, _⟩ := shrinkLoop_props h.size _ _ bins2 hshrink
  rw [count_eq_sumCounts, count_eq_sumCounts, trackMinMax_bins]
  dsimp only
  rw [hsum, sumCounts_insertIdx hle]

theorem insert_bins_shape {h : Histogram} {b : Bin} {h2 : Histogram}
    (hins : h.insert b = some h2) :
    h2.bins.length = min (h.bins.length + 1) h.size ∧
    (h.bins.length + 1 ≤ h.size →
      h2.bins = List.insertIdx (upperBound h.bins b) b h.bins) := by
  obtain ⟨bins2, hshrink, he⟩ := insert_unfold hins
  subst he
  obtain ⟨hle, _, _⟩ := upperBound_spec h.bins b
  obtain ⟨hlen, hid, _, _, _, _, _⟩ := shrinkLoop_props h.size _ _ bins2 hshrink
  have hlil : (List.insertIdx (upperBound h.bins b) b h.bins).length = h.bins.length + 1 :=
    List.length_insertIdx _ _ hle
  rw [trackMinMax_bins]
  dsimp only
  constructor
  · rw [hlen, hlil]
  · intro hfit
    rw [hid (by omega)]

theorem insert_inv {h : Histogram} {b : Bin} {h2 : Histogram} (hinv : h.Inv)
    (hins : h.insert b = some h2) : h2.Inv := by
  obtain ⟨hsize, hlen, hsort, hzeros, hminiff, hmaxiff, hminb, hmaxb⟩ := hinv
  obtain ⟨bins2, hshrink, he⟩ := insert_unfold hins
  obtain ⟨hle, _, _⟩ := upperBound_spec h.bins b
  obtain ⟨hlen2, _, hsum2, hsorted2, hzeros2, hbounds2, _⟩ :=
    shrinkLoop_props h.size _ _ bins2 hshrink
  have hlil : (List.insertIdx (upperBound h.bins b) b h.bins).length = h.bins.length + 1 :=
    List.length_insertIdx _ _ hle
  have hsort1 : VSorted (List.insertIdx (upperBound h.bins b) b h.bins) :=
    vsorted_insertIdx_upperBound b hsort
  have hzeros1 : ZerosFirst (List.insertIdx (upperBound h.bins b) b h.bins) :=
    zerosFirst_insertIdx_upperBound b hsort hzeros
  have hb2len : bins2.length = min (h.bins.length + 1) h.size := by rw [hlen2, hlil]
  have hb2ne : bins2 ≠ [] := by
    intro hcon
    rw [hcon] at hb2len
    simp at hb2len
    omega
  subst he
  refine ⟨hsize, ?_, ?_, ?_, ?_, ?_, ?_, ?_⟩
  · rw [trackMinMax_bins, trackMinMax_size]
    dsimp only
    omega
  · rw [trackMinMax_bins]
    dsimp only
    exact hsorted2 hsort1
  · rw [trackMinMax_bins]
    dsimp only
    exact hzeros2 hsort1 hzeros1
  · rw [trackMinMax_bins, trackMinMax_min]
    dsimp only
    constructor
    · intro hcon; exact absurd hcon hb2ne
    · intro hcon
      rcases hmv : h.min_value with _ | c <;> rw [hmv] at hcon <;>
        unfold combineMin at hcon <;> simp at hcon
  · rw [trackMinMax_bins, trackMinMax_max]
    dsimp only
    constructor
    · intro hcon; exact absurd hcon hb2ne
    · intro hcon
      rcases hmv : h.max_value with _ | c <;> rw [hmv] at hcon <;>
        unfold combineMax at hcon <;> simp at hcon
  · rw [trackMinMax_bins, trackMinMax_min]
    dsimp only
    intro m hm x hx
    rcases hM : h.max_value with _ | M0
    · -- max absent: bins empty, so min absent too
      have hbe : h.bins = [] := hmaxiff.mpr hM
      have hmn : h.min_value = none := hminiff.mp hbe
      rw [hmn] at hm
      simp only [combineMin, Option.some.injEq] at hm
      subst hm
      have : ∀ x ∈ List.insertIdx (upperBound h.bins b) b h.bins,
          b.value ≤ x.value ∧ x.value ≤ b.value := by
        intro y hy
        rw [List.mem_insertIdx hle] at hy
        rcases hy with rfl | hy2
        · exact ⟨le_refl _, le_refl _⟩
        · rw [hbe] at hy2; simp at hy2
      exact (hbounds2 b.value b.value this x hx).1
    · have hbne : h.bins ≠ [] := by
        intro hcon
        have hn := hmaxiff.mp hcon
        rw [hM] at hn
        exact Option.noConfusion hn
      rcases hm0 : h.min_value with _ | m0
      · exact absurd (hminiff.mpr hm0) hbne
      · rw [hm0] at hm
        simp only [combineMin, Option.some.injEq] at hm
        subst hm
        have hpre : ∀ y ∈ List.insertIdx (upperBound h.bins b) b h.bins,
            min m0 b.value ≤ y.value ∧ y.value ≤ max M0 b.value := by
          intro y hy
          rw [List.mem_insertIdx hle] at hy
          rcases hy with rfl | hy2
          · exact ⟨min_le_right _ _, le_max_right _ _⟩
          · exact ⟨le_trans (min_le_left _ _) (hminb m0 hm0 y hy2),
              le_trans (hmaxb M0 hM y hy2) (le_max_left _ _)⟩
        exact (hbounds2 _ _ hpre x hx).1
  · rw [trackMinMax_bins, trackMinMax_max]
    dsimp only
    intro M hM' x hx
    rcases hm0 : h.min_value with _ | m0
    · have hbe : h.bins = [] := hminiff.mpr hm0
      have hMn : h.max_value = none := hmaxiff.mp hbe
      rw [hMn] at hM'
      simp only [combineMax, Option.some.injEq] at hM'
      subst hM'
      have : ∀ y ∈ List.insertIdx (upperBound h.bins b) b h.bins,
          b.value ≤ y.value ∧ y.value ≤ b.value := by
        intro y hy
        rw [List.mem_insertIdx hle] at hy
        rcases hy with rfl | hy2
        · exact ⟨le_refl _, le_refl _⟩
        · rw [hbe] at hy2; simp at hy2
      exact (hbounds2 b.value b.value this x hx).2
    · have hbne : h.bins ≠ [] := by
        intro hcon
        have hn := hminiff.mp hcon
        rw [hm0] at hn
        exact Option.noConfusion hn
      rcases hM0 : h.max_value with _ | M0
      · exact absurd (hmaxiff.mpr hM0) hbne
      · rw [hM0] at hM'
        simp only [combineMax, Option.some.injEq] at hM'
        subst hM'
        have hpre : ∀ y ∈ List.insertIdx (upperBound h.bins b) b h.bins,
            min m0 b.value ≤ y.value ∧ y.value ≤ max M0 b.value := by
          intro y hy
          rw [List.mem_insertIdx hle] at hy
          rcases hy with rfl | hy2
          · exact ⟨min_le_right _ _, le_max_right _ _⟩
          · exact ⟨le_trans (min_le_left _ _) (hminb m0 hm0 y hy2),
              le_trans (hmaxb M0 hM0 y hy2) (le_max_left _ _)⟩
        exact (hbounds2 _ _ hpre x hx).2

theorem insert_posCounts {h : Histogram} {b : Bin} {h2 : Histogram}
    (hins : h.insert b = some h2) (hpc : PosCounts h) (hb : 1 ≤ b.count) : PosCounts h2 := by
  obtain ⟨bins2, hshrink, he⟩ := insert_unfold hins
  subst he
  obtain ⟨hle, _, _⟩ := upperBound_spec h.bins b
  obtain ⟨_, _, _, _, _, _, hpc2⟩ := shrinkLoop_props h.size _ _ bins2 hshrink
  unfold PosCounts
  rw [trackMinMax_bins]
  dsimp only
  refine hpc2 ?_
  intro x hx
  rw [List.mem_insertIdx hle] at hx
  rcases hx with rfl | hx2
  · exact hb
  · exact hpc x hx2

theorem insert_some_of_posCounts {h : Histogram} (b : Bin) (hsize : 1 ≤ h.size)
    (hpc : PosCounts h) (hb : 1 ≤ b.count) : ∃ h2, h.insert b = some h2 := by
  obtain ⟨hle, _, _⟩ := upperBound_spec h.bins b
  have hl : ∀ x ∈ List.insertIdx (upperBound h.bins b) b h.bins, 1 ≤ x.count := by
    intro x hx
    rw [List.mem_insertIdx hle] at hx
    rcases hx with rfl | hx2
    · exact hb
    · exact hpc x hx2
  obtain ⟨out, hout⟩ := shrinkLoop_some_of_posCounts h.size hsize
    (List.insertIdx (upperBound h.bins b) b h.bins).length
    (List.insertIdx (upperBound h.bins b) b h.bins) (le_refl _) hl
  unfold Histogram.insert
  dsimp only
  have hshr : shrink h.size (List.insertIdx (upperBound h.bins b) b h.bins) = some out := hout
  rw [hshr]
  exact ⟨_, rfl⟩

theorem combineMin_none_right (a : Option ℚ) : combineMin a none = a := by
  cases a <;> rfl

theorem combineMax_none_right (a : Option ℚ) : combineMax a none = a := by
  cases a <;> rfl

theorem foldMin_absorb (m2 : ℚ) :
    ∀ (l : List Bin) (a : Option ℚ), (∀ b ∈ l, m2 ≤ b.value) →
      combineMin (List.foldl (fun acc b => combineMin acc (some b.value)) a l) (some m2) =
        combineMin a (some m2) := by
  intro l
  induction l with
  | nil => intro a _; rfl
  | cons b rest ih =>
    intro a hb
    simp only [List.foldl_cons]
    rw [ih _ (fun x hx => hb x (by simp [hx]))]
    have hm2b : m2 ≤ b.value := hb b (by simp)
    cases a with
    | none =>
      show some (min b.value m2) = some m2
      rw [min_eq_right hm2b]
    | some a0 =>
      show some (min (min a0 b.value) m2) = some (min a0 m2)
      rw [min_assoc, min_eq_right hm2b]

theorem foldMax_absorb (M2 : ℚ) :
    ∀ (l : List Bin) (a : Option ℚ), (∀ b ∈ l, b.value ≤ M2) →
      combineMax (List.foldl (fun acc b => combineMax acc (some b.value)) a l) (some M2) =
        combineMax a (some M2) := by
  intro l
  induction l with
  | nil => intro a _; rfl
  | cons b rest ih =>
    intro a hb
    simp only [List.foldl_cons]
    rw [ih _ (fun x hx => hb x (by simp [hx]))]
    have hm2b : b.value ≤ M2 := hb b (by simp)
    cases a with
    | none =>
      show some (max b.value M2) = some M2
      rw [max_eq_right hm2b]
    | some a0 =>
      show some (max (max a0 b.value) M2) = some (max a0 M2)
      rw [max_assoc, max_eq_right hm2b]

theorem combineMin_absorb2 {X : Option ℚ} {a b : ℚ} (hab : a ≤ b) :
    combineMin (combineMin X (some a)) (some b) = combineMin X (some a) := by
  cases X with
  | none =>
    show some (min a b) = some a
    rw [min_eq_left hab]
  | some x =>
    show some (min (min x a) b) = some (min x a)
    rw [min_eq_left (le_trans (min_le_right x a) hab)]

theorem combineMax_absorb2 {X : Option ℚ} {a b : ℚ} (hab : a ≤ b) :
    combineMax (combineMax X (some a)) (some b) = combineMax X (some b) := by
  cases X with
  | none =>
    show some (max a b) = some b
    rw [max_eq_right hab]
  | some x =>
    show some (max (max x a) b) = some (max x b)
    rw [max_assoc, max_eq_right hab]

theorem trackMinMax_inv {h : Histogram} (hinv : h.Inv) (hne : h.bins ≠ []) (v : ℚ) :
    (h.trackMinMax v).Inv := by
  obtain ⟨hsize, hlen, hsort, hzeros, hminiff, hmaxiff, hminb, hmaxb⟩ := hinv
  obtain ⟨m0, hm0⟩ : ∃ m0, h.min_value = some m0 := by
    rcases hm : h.min_value with _ | m0
    · exact absurd (hminiff.mpr hm) hne
    · exact ⟨m0, rfl⟩
  obtain ⟨M0, hM0⟩ : ∃ M0, h.max_value = some M0 := by
    rcases hM : h.max_value with _ | M0
    · exact absurd (hmaxiff.mpr hM) hne
    · exact ⟨M0, rfl⟩
  refine ⟨hsize, ?_, ?_, ?_, ?_, ?_, ?_, ?_⟩
  · rw [trackMinMax_bins, trackMinMax_size]; exact hlen
  · rw [trackMinMax_bins]; exact hsort
  · rw [trackMinMax_bins]; exact hzeros
  · rw [trackMinMax_bins, trackMinMax_min, hm0]
    constructor
    · intro hcon; exact absurd hcon hne
    · intro hcon
      simp only [combineMin] at hcon
      exact Option.noConfusion hcon
  · rw [trackMinMax_bins, trackMinMax_max, hM0]
    constructor
    · intro hcon; exact absurd hcon hne
    · intro hcon
      simp only [combineMax] at hcon
      exact Option.noConfusion hcon
  · rw [trackMinMax_bins, trackMinMax_min, hm0]
    intro m hm x hx
    simp only [combineMin, Option.some.injEq] at hm
    subst hm
    exact le_trans (min_le_left _ _) (hminb m0 hm0 x hx)
  · rw [trackMinMax_bins, trackMinMax_max, hM0]
    intro M hM x hx
    simp only [combineMax, Option.some.injEq] at hM
    subst hM
    exact le_trans (hmaxb M0 hM0 x hx) (le_max_left _ _)

theorem insertAllBins_props :
    ∀ (l : List Bin) (h h1 : Histogram), insertAllBins h l = some h1 →
      h1.count = h.count + sumCounts l ∧ h1.size = h.size ∧
      h1.min_value = List.foldl (fun acc b => combineMin acc (some b.value)) h.min_value l ∧
      h1.max_value = List.foldl (fun acc b => combineMax acc (some b.value)) h.max_value l ∧
      (h.Inv → h1.Inv) ∧ (h.Inv → l ≠ [] → h1.bins ≠ []) := by
  intro l
  induction l with
  | nil =>
    intro h h1 hall
    unfold insertAllBins at hall
    simp only [Option.some.injEq] at hall
    subst hall
    unfold sumCounts
    exact ⟨by simp [Histogram.count], rfl, rfl, rfl, fun hi => hi, fun _ hcon => absurd rfl hcon⟩
  | cons b rest ih =>
    intro h h1 hall
    unfold insertAllBins at hall
    rcases hins : h.insert b with _ | h' 
    · rw [hins] at hall; simp at hall
    · rw [hins] at hall
      dsimp only at hall
      obtain ⟨ihc, ihs, ihmin, ihmax, ihinv, ihne⟩ := ih h' h1 hall
      obtain ⟨hmin', hmax', hsize'⟩ := insert_min_max hins
      have hcount' := insert_count hins
      refine ⟨?_, ?_, ?_, ?_, ?_, ?_⟩
      · rw [ihc, hcount']
        unfold sumCounts
        simp only [List.map_cons, List.sum_cons]
        omega
      · rw [ihs, hsize']
      · rw [ihmin, hmin']
        simp only [List.foldl_cons]
      · rw [ihmax, hmax']
        simp only [List.foldl_cons]
      · intro hi
        exact ihinv (insert_inv hi hins)
      · intro hi _
        have hinv' := insert_inv hi hins
        have hne' : h'.bins ≠ [] := by
          obtain ⟨hleng, _⟩ := insert_bins_shape hins
          intro hcon
          rw [hcon] at hleng
          simp at hleng
          obtain ⟨hs1, _⟩ := hi
          omega
        rcases hre : rest with _ | ⟨c, cs⟩
        · rw [hre] at hall
          unfold insertAllBins at hall
          simp only [Option.some.injEq] at hall
          rw [← hall]
          exact hne'
        · refine ihne hinv' (by rw [hre]; simp)

theorem merge_props {h other h2 : Histogram} (hinv2 : other.Inv)
    (hm : h.merge other = some h2) :
    h2.count = h.count + other.count ∧
    h2.min_value = combineMin h.min_value other.min_value ∧
    h2.max_value = combineMax h.max_value other.max_value ∧
    h2.size = h.size ∧ (h.Inv → h2.Inv) := by
  obtain ⟨_, _, _, _, hminiff2, hmaxiff2, hminb2, hmaxb2⟩ := hinv2
  unfold Histogram.merge at hm
  rcases ha : insertAllBins h other.bins with _ | h1
  · rw [ha] at hm; simp at hm
  · rw [ha] at hm
    dsimp only at hm
    obtain ⟨hc, hs, hmin, hmax, hinv1, hne1⟩ := insertAllBins_props other.bins h h1 ha
    rcases hm2 : other.min_value with _ | m2
    · have hbe : other.bins = [] := hminiff2.mpr hm2
      have hM2 : other.max_value = none := hmaxiff2.mp hbe
      rw [hm2, hM2] at hm
      dsimp only at hm
      simp only [Option.some.injEq] at hm
      subst hm
      rw [hbe] at hc hmin hmax
      simp only [List.foldl_nil] at hmin hmax
      refine ⟨?_, ?_, ?_, hs, hinv1⟩
      · rw [hc, count_eq_sumCounts other, hbe]
      · rw [hmin, combineMin_none_right]
      · rw [hmax, hM2, combineMax_none_right]
    · have hbne : other.bins ≠ [] := by
        intro hcon
        have hn := hminiff2.mp hcon
        rw [hm2] at hn
        exact Option.noConfusion hn
      obtain ⟨M2, hM2⟩ : ∃ M2, other.max_value = some M2 := by
        rcases hM : other.max_value with _ | M2
        · exact absurd (hmaxiff2.mpr hM) hbne
        · exact ⟨M2, rfl⟩
      have hm2M2 : m2 ≤ M2 := by
        rcases hx : other.bins with _ | ⟨b0, rest⟩
        · exact absurd hx hbne
        · have hb1 := hminb2 m2 hm2 b0 (by rw [hx]; simp)
          have hb2 := hmaxb2 M2 hM2 b0 (by rw [hx]; simp)
          linarith
      rw [hm2, hM2] at hm
      dsimp only at hm
      simp only [Option.some.injEq] at hm
      subst hm
      have hminvals : ∀ b ∈ other.bins, m2 ≤ b.value := hminb2 m2 hm2
      have hmaxvals : ∀ b ∈ other.bins, b.value ≤ M2 := hmaxb2 M2 hM2
      refine ⟨?_, ?_, ?_, ?_, ?_⟩
      · rw [count_eq_sumCounts, trackMinMax_bins, trackMinMax_bins, ← count_eq_sumCounts,
          hc, ← count_eq_sumCounts other]
      · rw [trackMinMax_min, trackMinMax_min, hmin, combineMin_absorb2 hm2M2,
          foldMin_absorb m2 other.bins h.min_value hminvals]
      · rw [trackMinMax_max, trackMinMax_max, hmax, combineMax_absorb2 hm2M2,
          foldMax_absorb M2 other.bins h.max_value hmaxvals, hM2]
      · rw [trackMinMax_size, trackMinMax_size, hs]
      · intro hi
        have hinv1' := hinv1 hi
        have hne1' := hne1 hi hbne
        refine trackMinMax_inv (trackMinMax_inv hinv1' hne1' m2) ?_ M2
        rw [trackMinMax_bins]
        exact hne1'

theorem reachable_inv {h : Histogram} (hr : Reachable h) : h.Inv := by
  induction hr with
  | new size h hnew =>
    unfold Histogram.new at hnew
    split at hnew
    · simp at hnew
    · rename_i hsz
      simp only [Option.some.injEq] at hnew
      subst hnew
      refine ⟨show 1 ≤ size by omega, by simp, List.Pairwise.nil, List.Pairwise.nil,
        by simp, by simp, ?_, ?_⟩
      · intro m _ x hx; simp at hx
      · intro m _ x hx; simp at hx
  | insert h b h2 _ hins ih => exact insert_inv ih hins
  | insertValue h v h2 _ hins ih =>
    unfold Histogram.insertValue at hins
    exact insert_inv ih hins
  | merge h other h2 _ _ hmg ih ih2 => exact (merge_props ih2 hmg).2.2.2.2 ih

theorem reachable_empty2 : Reachable ⟨2, [], none, none⟩ := Reachable.new 2 _ rfl

theorem reachable_histThreeOnes : Reachable histThreeOnes := by
  have h1 : Reachable ⟨2, [⟨1, 1⟩], some 1, some 1⟩ :=
    Reachable.insertValue _ 1 _ reachable_empty2 rfl
  have h2 : Reachable ⟨2, [⟨1, 1⟩, ⟨1, 1⟩], some 1, some 1⟩ :=
    Reachable.insertValue _ 1 _ h1 rfl
  refine Reachable.insertValue _ 1 _ h2 ?_
  norm_num [Histogram.insertValue, Histogram.insert, upperBound, ubLoop, dBin, Bin.le,
    shrink, shrinkLoop, findClosestBins, minByKeyFirst, pairKey, keyLt, Bin.merge,
    Histogram.trackMinMax, histThreeOnes, ratAbs, List.range', List.getD, List.insertIdx]

theorem reachable_histZeroBin : Reachable histZeroBin :=
  Reachable.insert _ ⟨42, 0⟩ _ (Reachable.new 1 _ rfl) rfl

theorem reachable_oneBin53 : Reachable ⟨2, [⟨5, 3⟩], some 5, some 5⟩ :=
  Reachable.insert _ ⟨5, 3⟩ _ (Reachable.new 2 _ rfl) rfl

/-- C1 (amended): for every histogram reachable from `new(size)` by inserts
and merges, the bin list has length at most `size`, the bins are sorted
ascending by value (ties between equal values may appear in any count
order — sortedness under Bin's full total order can fail, see the
counterexample), `count()` equals the sum of the bin counts, and, when the
histogram is non-empty, the tracked extremes are present and bound every
bin's value. -/
theorem C1_reachable_invariants {h : Histogram} (hr : Reachable h) :
    h.bins.length ≤ h.size ∧
    h.bins.Pairwise (fun a b => a.value ≤ b.value) ∧
    h.count = (h.bins.map Bin.count).sum ∧
    (h.bins ≠ [] → ∃ m M, h.min_value = some m ∧ h.max_value = some M ∧
      ∀ b ∈ h.bins, m ≤ b.value ∧ b.value ≤ M) := by
  obtain ⟨hsize, hlen, hsort, hzeros, hminiff, hmaxiff, hminb, hmaxb⟩ := reachable_inv hr
  refine ⟨hlen, hsort, rfl, ?_⟩
  intro hne
  obtain ⟨m0, hm0⟩ : ∃ m0, h.min_value = some m0 := by
    rcases hm : h.min_value with _ | m0
    · exact absurd (hminiff.mpr hm) hne
    · exact ⟨m0, rfl⟩
  obtain ⟨M0, hM0⟩ : ∃ M0, h.max_value = some M0 := by
    rcases hM : h.max_value with _ | M0
    · exact absurd (hmaxiff.mpr hM) hne
    · exact ⟨M0, rfl⟩
  exact ⟨m0, M0, hm0, hM0, fun b hb => ⟨hminb m0 hm0 b hb, hmaxb M0 hM0 b hb⟩⟩

/-- C1 counterexample: after `new(2)` and three inserts of the value `1`,
the bin list is `[(1, 2), (1, 1)]`, which is not sorted ascending under
Bin's total order (value, then count): the claim's sortedness conjunct fails
on this reachable state. -/
theorem C1_counterexample :
    Reachable histThreeOnes ∧ ¬ histThreeOnes.bins.Pairwise Bin.le :=
  ⟨reachable_histThreeOnes, by decide⟩

theorem C1_witness :
    histThreeOnes.bins.length ≤ histThreeOnes.size ∧
    histThreeOnes.bins.Pairwise (fun a b => a.value ≤ b.value) ∧
    histThreeOnes.count = (histThreeOnes.bins.map Bin.count).sum ∧
    (histThreeOnes.bins ≠ [] → ∃ m M, histThreeOnes.min_value = some m ∧
      histThreeOnes.max_value = some M ∧
      ∀ b ∈ histThreeOnes.bins, m ≤ b.value ∧ b.value ≤ M) :=
  C1_reachable_invariants reachable_histThreeOnes

/-- C5: after `h1.merge(&h2)` completes, the count is the sum of the two
counts, and the tracked extremes combine (an absent extreme contributing
nothing).  `h2` itself is untouched: in Rust `merge` takes `other` by shared
reference and only reads it, which the purely functional embedding models by
construction. -/
theorem C5_merge_accumulation {h1 h2 hr : Histogram} (hreach2 : Reachable h2)
    (hm : h1.merge h2 = some hr) :
    hr.count = h1.count + h2.count ∧
    hr.min_value = combineMin h1.min_value h2.min_value ∧
    hr.max_value = combineMax h1.max_value h2.max_value := by
  obtain ⟨a, b, c, _, _⟩ := merge_props (reachable_inv hreach2) hm
  exact ⟨a, b, c⟩

theorem C5_witness :
    (⟨2, [], none, none⟩ : Histogram).merge histThreeOnes =
      some ⟨2, [⟨1, 1⟩, ⟨1, 2⟩], some 1, some 1⟩ ∧
    (⟨2, [⟨1, 1⟩, ⟨1, 2⟩], some 1, some 1⟩ : Histogram).count =
      (⟨2, [], none, none⟩ : Histogram).count + histThreeOnes.count ∧
    (⟨2, [⟨1, 1⟩, ⟨1, 2⟩], some 1, some 1⟩ : Histogram).min_value =
      combineMin (⟨2, [], none, none⟩ : Histogram).min_value histThreeOnes.min_value ∧
    (⟨2, [⟨1, 1⟩, ⟨1, 2⟩], some 1, some 1⟩ : Histogram).max_value =
      combineMax (⟨2, [], none, none⟩ : Histogram).max_value histThreeOnes.max_value := by
  have hmg : (⟨2, [], none, none⟩ : Histogram).merge histThreeOnes =
      some ⟨2, [⟨1, 1⟩, ⟨1, 2⟩], some 1, some 1⟩ := by
    norm_num [Histogram.merge, insertAllBins, Histogram.insert, upperBound, ubLoop, dBin,
      Bin.le, shrink, shrinkLoop, findClosestBins, minByKeyFirst, pairKey, keyLt,
      Bin.merge, Histogram.trackMinMax, histThreeOnes, ratAbs, List.range', List.getD,
      List.insertIdx]
  have := C5_merge_accumulation reachable_histThreeOnes hmg
  exact ⟨hmg, this.1, this.2.1, this.2.2⟩

/-- C8: `quantile(0.0)` returns exactly the tracked minimum and
`quantile(1.0)` exactly the tracked maximum — the stored extreme is returned
verbatim, with no interpolation involved (`Some` the extreme for a non-empty
histogram, `None` for an empty one). -/
theorem C8_boundary_quantiles (sq : ℚ → ℚ) (h : Histogram) :
    h.quantile sq 0 = some h.min_value ∧ h.quantile sq 1 = some h.max_value := by
  constructor
  · unfold Histogram.quantile
    rw [if_neg (by norm_num), if_pos rfl]
  · unfold Histogram.quantile
    rw [if_neg (by norm_num), if_neg (by norm_num), if_pos rfl]

theorem insertAllBins_some_of_posCounts :
    ∀ (l : List Bin) (h : Histogram), 1 ≤ h.size → PosCounts h → (∀ b ∈ l, 1 ≤ b.count) →
      ∃ h1, insertAllBins h l = some h1 ∧ PosCounts h1 ∧ h1.size = h.size := by
  intro l
  induction l with
  | nil => intro h _ hp _; exact ⟨h, rfl, hp, rfl⟩
  | cons b rest ih =>
    intro h hs hp hl
    obtain ⟨h2, hins⟩ := insert_some_of_posCounts b hs hp (hl b (by simp))
    have hp2 := insert_posCounts hins hp (hl b (by simp))
    have hsz2 : h2.size = h.size := (insert_min_max hins).2.2
    obtain ⟨h3, hall, hp3, hsz3⟩ := ih h2 (by omega) hp2 (fun x hx => hl x (by simp [hx]))
    refine ⟨h3, ?_, hp3, by omega⟩
    unfold insertAllBins
    rw [hins]
    exact hall

theorem merge_some_of_posCounts {h other : Histogram} (hs : 1 ≤ h.size)
    (hp : PosCounts h) (hp2 : PosCounts other) :
    ∃ h2, h.merge other = some h2 ∧ PosCounts h2 := by
  obtain ⟨h1, hall, hp1, hsz1⟩ := insertAllBins_some_of_posCounts other.bins h hs hp hp2
  unfold Histogram.merge
  rw [hall]
  dsimp only
  refine ⟨_, rfl, ?_⟩
  rcases hmin : other.min_value with _ | v <;> rcases hmax : other.max_value with _ | w
  · exact hp1
  · intro x hx
    rw [trackMinMax_bins] at hx
    exact hp1 x hx
  · intro x hx
    rw [trackMinMax_bins] at hx
    exact hp1 x hx
  · intro x hx
    rw [trackMinMax_bins, trackMinMax_bins] at hx
    exact hp1 x hx

/-- C10: as long as every Bin ever inserted (directly, or through a merge
from another histogram) has a positive count, the zero-combined-count
failure branch of `Bin::merge` can never be reached from the shrink loop:
`insert` and `merge` always complete without failing and preserve the
positive-count property. -/
theorem C10_no_zero_count_merge_failure :
    (∀ (h : Histogram) (b : Bin), 1 ≤ h.size → PosCounts h → 1 ≤ b.count →
      ∃ h2, h.insert b = some h2 ∧ PosCounts h2) ∧
    (∀ (h : Histogram) (v : ℚ), 1 ≤ h.size → PosCounts h →
      ∃ h2, h.insertValue v = some h2 ∧ PosCounts h2) ∧
    (∀ (h other : Histogram), 1 ≤ h.size → PosCounts h → PosCounts other →
      ∃ h2, h.merge other = some h2 ∧ PosCounts h2) := by
  refine ⟨?_, ?_, ?_⟩
  · intro h b hs hp hb
    obtain ⟨h2, hins⟩ := insert_some_of_posCounts b hs hp hb
    exact ⟨h2, hins, insert_posCounts hins hp hb⟩
  · intro h v hs hp
    obtain ⟨h2, hins⟩ := insert_some_of_posCounts ⟨v, 1⟩ hs hp (le_refl 1)
    exact ⟨h2, hins, insert_posCounts hins hp (le_refl 1)⟩
  · intro h other hs hp hp2
    exact merge_some_of_posCounts hs hp hp2

theorem C10_witness :
    1 ≤ histThreeOnes.size ∧ PosCounts histThreeOnes ∧
    (∃ h2, histThreeOnes.insert ⟨5, 2⟩ = some h2 ∧ PosCounts h2) := by
  refine ⟨by norm_num [histThreeOnes], show ∀ b ∈ histThreeOnes.bins, 1 ≤ b.count by decide, ?_⟩
  exact C10_no_zero_count_merge_failure.1 histThreeOnes ⟨5, 2⟩
    (by norm_num [histThreeOnes])
    (show ∀ b ∈ histThreeOnes.bins, 1 ≤ b.count by decide) (by norm_num)

/-- C6 (amended): for a histogram whose bins are sorted ascending under
Bin's total order, insert places the new Bin at the first position whose
existing element is not less-or-equal under that order (the upper-bound
position): every bin before that position is less-or-equal to the inserted
bin, and every bin at or after it is strictly greater — so equal-value bins
with strictly greater count end up after the inserted bin, while bins with
equal value and equal-or-smaller count end up before it.  (On reachable
histograms whose equal-value runs are not sorted by count, the binary
search can return a position different from the first not-less-or-equal
position, see the counterexample.) -/
theorem C6_upper_bound_insertion {bins : List Bin} (b : Bin)
    (hs : bins.Pairwise Bin.le) :
    upperBound bins b = specInsertPos bins b ∧
    (∀ j, j < specInsertPos bins b → Bin.le (bins.getD j dBin) b) ∧
    (∀ j, specInsertPos bins b ≤ j → j < bins.length →
      b.value < (bins.getD j dBin).value ∨
        ((bins.getD j dBin).value = b.value ∧ b.count < (bins.getD j dBin).count)) ∧
    (∀ (h h2 : Histogram), h.bins = bins → h.insert b = some h2 →
      shrink h.size (List.insertIdx (specInsertPos bins b) b bins) = some h2.bins) := by
  have heq := upperBound_eq_of_sorted b hs
  refine ⟨heq, ?_, ?_, ?_⟩
  · intro j hj
    exact of_decide_eq_true (takeWhile_getD_true _ dBin bins j hj)
  · intro j hj hjl
    have hnle : ¬ Bin.le (bins.getD j dBin) b := by
      intro hle
      have hP : Bin.le (bins.getD (specInsertPos bins b) dBin) b := by
        rcases Nat.lt_or_ge (specInsertPos bins b) j with hlt | hge
        · exact binLe_trans (pairwise_getD hs hlt hjl) hle
        · have hej : specInsertPos bins b = j := by omega
          rw [hej]; exact hle
      have hF := takeWhile_getD_false (fun x => decide (Bin.le x b)) dBin bins
        (show (bins.takeWhile (fun x => decide (Bin.le x b))).length < bins.length by
          simp only [specInsertPos] at hj hjl
          omega)
      simp only [decide_eq_false_iff_not] at hF
      simp only [specInsertPos] at hP
      exact hF hP
    rcases lt_trichotomy b.value (bins.getD j dBin).value with hv | hv | hv
    · exact Or.inl hv
    · refine Or.inr ⟨hv.symm, ?_⟩
      by_contra hc
      exact hnle (Or.inr ⟨hv.symm, by omega⟩)
    · exact absurd (Or.inl hv) hnle
  · intro h h2 hb hins
    obtain ⟨bins2, hshrink, he⟩ := insert_unfold hins
    subst he
    rw [trackMinMax_bins]
    dsimp only
    rw [← heq, ← hb]
    exact hshrink

/-- C6 counterexample: on the reachable state with bins `[(1, 2), (1, 1)]`
(an equal-value run not sorted by count), inserting `Bin(1, 1)` places it at
position 2 while the first position whose element is not less-or-equal is 0;
and on the reachable sorted state `[(5, 3)]`, inserting the equal bin
`Bin(5, 3)` yields position 1, so the existing equal-value equal-count bin
stays before the inserted bin rather than after it. -/
theorem C6_counterexample :
    (Reachable histThreeOnes ∧
      upperBound histThreeOnes.bins ⟨1, 1⟩ = 2 ∧
      specInsertPos histThreeOnes.bins ⟨1, 1⟩ = 0 ∧ (2 : ℕ) ≠ 0) ∧
    (Reachable ⟨2, [⟨5, 3⟩], some 5, some 5⟩ ∧
      ([⟨5, 3⟩] : List Bin).Pairwise Bin.le ∧
      upperBound [⟨5, 3⟩] ⟨5, 3⟩ = 1) := by
  refine ⟨⟨reachable_histThreeOnes, rfl, by decide, by decide⟩,
    ⟨reachable_oneBin53, by decide, rfl⟩⟩

theorem C6_witness :
    upperBound [(⟨1, 1⟩ : Bin), ⟨1, 2⟩] ⟨1, 1⟩ = specInsertPos [⟨1, 1⟩, ⟨1, 2⟩] ⟨1, 1⟩ :=
  (C6_upper_bound_insertion ⟨1, 1⟩ (by decide)).1

theorem shrink_step {size : ℕ} {bins : List Bin} (h : size < bins.length) :
    shrink size bins =
      (match findClosestBins bins with
       | none => none
       | some (l, r) =>
         match Bin.merge (bins.getD l dBin) (bins.getD r dBin) with
         | none => none
         | some m => shrink size ((bins.set l m).eraseIdx r)) := by
  unfold shrink
  have hfuel : bins.length = (bins.length - 1) + 1 := by omega
  conv_lhs => rw [hfuel]
  rw [shrinkLoop]
  rw [if_neg (by omega)]
  rcases hfc : findClosestBins bins with _ | ⟨l, r⟩
  · rfl
  · dsimp only
    rcases hmg : Bin.merge (bins.getD l dBin) (bins.getD r dBin) with _ | m
    · rfl
    · dsimp only
      obtain ⟨r', hp, hr1, hr2, _⟩ := findClosestBins_eq_some hfc
      have hrr : l = r' - 1 ∧ r = r' := by
        rw [Prod.mk.injEq] at hp
        exact ⟨hp.1, hp.2⟩
      obtain ⟨hl, hr⟩ := hrr
      have hlen2 : ((bins.set l m).eraseIdx r).length = bins.length - 1 := by
        rw [List.length_eraseIdx, List.length_set]
        rw [if_pos (by omega)]
      rw [hlen2]

/-- C4: whenever the bin list exceeds `size`, shrink repeatedly merges
exactly the adjacent pair returned by `find_closest_bins` — the pair with
the smallest absolute value distance, ties broken by the smaller combined
count, remaining ties broken by the lowest index — replacing the left bin
with `Bin::merge(left, right)` and removing the right bin, until the length
equals `size`; and five unit-spaced equal-count bins collapse the leftmost
pair `(0, 1)` first. -/
theorem C4_shrink_closest_pair :
    (∀ bins : List Bin, 2 ≤ bins.length →
      ∃ r, findClosestBins bins = some (r - 1, r) ∧ 1 ≤ r ∧ r < bins.length ∧
        ∀ j, 1 ≤ j → j < bins.length → j ≠ r →
          ratAbs ((bins.getD r dBin).value - (bins.getD (r - 1) dBin).value) <
            ratAbs ((bins.getD j dBin).value - (bins.getD (j - 1) dBin).value) ∨
          (ratAbs ((bins.getD r dBin).value - (bins.getD (r - 1) dBin).value) =
            ratAbs ((bins.getD j dBin).value - (bins.getD (j - 1) dBin).value) ∧
            ((bins.getD (r - 1) dBin).count + (bins.getD r dBin).count <
              (bins.getD (j - 1) dBin).count + (bins.getD j dBin).count ∨
             ((bins.getD (r - 1) dBin).count + (bins.getD r dBin).count =
               (bins.getD (j - 1) dBin).count + (bins.getD j dBin).count ∧ r < j)))) ∧
    (∀ (size : ℕ) (bins : List Bin), size < bins.length →
      shrink size bins =
        (match findClosestBins bins with
         | none => none
         | some (l, r) =>
           match Bin.merge (bins.getD l dBin) (bins.getD r dBin) with
           | none => none
           | some m => shrink size ((bins.set l m).eraseIdx r))) ∧
    (∀ (size : ℕ) (bins out : List Bin), size < bins.length →
      shrink size bins = some out → out.length = size) ∧
    findClosestBins [⟨1, 1⟩, ⟨2, 1⟩, ⟨3, 1⟩, ⟨4, 1⟩, ⟨5, 1⟩] = some (0, 1) := by
  refine ⟨?_, ?_, ?_, ?_⟩
  case refine_4 =>
    norm_num [findClosestBins, minByKeyFirst, pairKey, keyLt, dBin, ratAbs,
      List.range', List.getD]
  · intro bins h2
    obtain ⟨p, hfc⟩ := findClosestBins_some_of_two h2
    obtain ⟨r, hp, hr1, hr2, hmin⟩ := findClosestBins_eq_some hfc
    subst hp
    refine ⟨r, hfc, hr1, hr2, ?_⟩
    intro j hj1 hj2 hjr
    rcases hmin j hj1 hj2 with hlt | ⟨heq, hle⟩
    · rcases hlt with hd | ⟨hd, hc⟩
      · exact Or.inl hd
      · exact Or.inr ⟨hd, Or.inl hc⟩
    · have hdd : pairKey bins r = pairKey bins j := heq
      rw [Prod.ext_iff] at hdd
      exact Or.inr ⟨hdd.1, Or.inr ⟨hdd.2, by omega⟩⟩
  · intro size bins h
    exact shrink_step h
  · intro size bins out h hout
    obtain ⟨hlen, _, _, _, _, _, _⟩ := shrinkLoop_props size bins.length bins out hout
    omega

theorem C4_witness : ([(⟨3 / 2, 2⟩ : Bin)] : List Bin).length = 1 := by
  refine C4_shrink_closest_pair.2.2.1 1 [⟨1, 1⟩, ⟨2, 1⟩] [⟨3 / 2, 2⟩] (by norm_num) ?_
  norm_num [shrink, shrinkLoop, findClosestBins, minByKeyFirst, pairKey, keyLt, dBin,
    Bin.merge, ratAbs, List.range', List.getD]

theorem prefixSums_length : ∀ (l : List ℚ) (acc : ℚ), (prefixSums acc l).length = l.length := by
  intro l
  induction l with
  | nil => intro acc; rfl
  | cons x xs ih =>
    intro acc
    unfold prefixSums
    simp [ih]

theorem adjacentAvgs_length (bins : List Bin) : (adjacentAvgs bins).length = bins.length := by
  unfold adjacentAvgs
  rw [List.length_zipWith]
  simp

theorem adjacentAvgs_nonneg (bins : List Bin) : ∀ x ∈ adjacentAvgs bins, 0 ≤ x := by
  unfold adjacentAvgs
  intro x hx
  have h2 : ∀ (l1 : List Bin) (l2 : List Bin) (y : ℚ),
      y ∈ List.zipWith (fun l r => ((l.count + r.count : ℕ) : ℚ) / 2) l1 l2 → 0 ≤ y := by
    intro l1
    induction l1 with
    | nil => intro l2 y hy; simp at hy
    | cons a as ih =>
      intro l2 y hy
      cases l2 with
      | nil => simp at hy
      | cons b bs =>
        simp only [List.zipWith_cons_cons, List.mem_cons] at hy
        rcases hy with rfl | hy2
        · positivity
        · exact ih bs y hy2
  exact h2 bins (Bin.empty 0 :: bins) x hx

theorem prefixSums_ge : ∀ (l : List ℚ) (acc : ℚ), (∀ x ∈ l, 0 ≤ x) →
    ∀ s ∈ prefixSums acc l, acc ≤ s := by
  intro l
  induction l with
  | nil => intro acc _ s hs; simp [prefixSums] at hs
  | cons x xs ih =>
    intro acc hpos s hs
    unfold prefixSums at hs
    rcases List.mem_cons.mp hs with rfl | hs2
    · have : 0 ≤ x := hpos x (by simp)
      linarith
    · have h1 := ih (acc + x) (fun y hy => hpos y (by simp [hy])) s hs2
      have : 0 ≤ x := hpos x (by simp)
      linarith

theorem prefixSums_mono : ∀ (l : List ℚ) (acc : ℚ), (∀ x ∈ l, 0 ≤ x) →
    List.Pairwise (· ≤ ·) (prefixSums acc l) := by
  intro l
  induction l with
  | nil => intro acc _; exact List.Pairwise.nil
  | cons x xs ih =>
    intro acc hpos
    unfold prefixSums
    rw [List.pairwise_cons]
    refine ⟨?_, ih (acc + x) (fun y hy => hpos y (by simp [hy]))⟩
    intro s hs
    exact prefixSums_ge xs (acc + x) (fun y hy => hpos y (by simp [hy])) s hs

theorem zip_shift_eq (f : Bin → Bin → ℚ) :
    ∀ (l : List Bin) (p : Bin),
      List.zipWith f l (p :: l) =
        (List.range l.length).map
          (fun i => f (l.getD i dBin) (if i = 0 then p else l.getD (i - 1) dBin)) := by
  intro l
  induction l with
  | nil => intro p; rfl
  | cons x xs ih =>
    intro p
    rw [List.length_cons, List.range_succ_eq_map, List.map_cons, List.map_map,
      List.zipWith_cons_cons, ih x]
    congr 1
    refine List.map_congr_left ?_
    intro i _
    simp only [Function.comp_apply, Nat.succ_eq_add_one]
    have h1 : ¬ (i + 1 = 0) := by omega
    rw [if_neg h1, List.getD_cons_succ]
    by_cases h0 : i = 0
    · subst h0
      simp
    · rw [if_neg h0, show i + 1 - 1 = (i - 1) + 1 by omega, List.getD_cons_succ]

theorem adjacentAvgs_eq_spec (bins : List Bin) : adjacentAvgs bins = specAdjAvgs bins := by
  unfold adjacentAvgs specAdjAvgs
  rw [zip_shift_eq]
  refine List.map_congr_left ?_
  intro i _
  by_cases h0 : i = 0
  · subst h0
    simp [Bin.empty]
  · rw [if_neg h0, if_neg h0]
    push_cast
    ring

theorem prefixSums_eq_acc : ∀ (l : List ℚ) (acc : ℚ),
    prefixSums acc l = (List.range l.length).map (fun i => acc + (l.take (i + 1)).sum) := by
  intro l
  induction l with
  | nil => intro acc; rfl
  | cons x xs ih =>
    intro acc
    unfold prefixSums
    simp only [List.length_cons, List.range_succ_eq_map, List.map_cons, List.map_map]
    congr 1
    · simp
    · rw [ih (acc + x)]
      refine List.map_congr_left ?_
      intro i _
      simp only [Function.comp_apply, Nat.succ_eq_add_one, List.take_succ_cons,
        List.sum_cons]
      ring

theorem prefixSums_eq_cumSums (l : List ℚ) : prefixSums 0 l = specCumSums l := by
  rw [prefixSums_eq_acc]
  unfold specCumSums
  refine List.map_congr_left ?_
  intro i _
  rw [zero_add]

theorem largestBelowAux_stable (target : ℚ) :
    ∀ (l : List ℚ) (idx : ℕ) (best : ℕ × ℚ), (∀ x ∈ l, ¬ x < target) →
      largestBelowAux target idx best l = best := by
  intro l
  induction l with
  | nil => intro idx best _; rfl
  | cons x xs ih =>
    intro idx best hall
    unfold largestBelowAux
    rw [if_neg (hall x (by simp))]
    exact ih (idx + 1) best (fun y hy => hall y (by simp [hy]))

theorem largestBelowAux_eq (target : ℚ) :
    ∀ (sums : List ℚ) (idx : ℕ) (best : ℕ × ℚ),
      List.Pairwise (· ≤ ·) sums →
      largestBelowAux target idx best sums =
        (match (sums.takeWhile (fun s => decide (target > s))).getLast? with
         | none => best
         | some s => (idx + (sums.takeWhile (fun s => decide (target > s))).length, s)) := by
  intro sums
  induction sums with
  | nil => intro idx best _; rfl
  | cons s rest ih =>
    intro idx best hsort
    rw [List.pairwise_cons] at hsort
    obtain ⟨hall, hrest⟩ := hsort
    unfold largestBelowAux
    by_cases hst : s < target
    · rw [if_pos hst]
      rw [ih (idx + 1) (idx + 1, s) hrest]
      rw [List.takeWhile_cons, if_pos (by simpa using hst)]
      rcases hlast : (rest.takeWhile (fun x => decide (target > x))).getLast? with _ | s'
      · have hnil : rest.takeWhile (fun x => decide (target > x)) = [] :=
          List.getLast?_eq_none_iff.mp hlast
        rw [hnil]
        simp
      · have hne : rest.takeWhile (fun x => decide (target > x)) ≠ [] := by
          intro hcon
          rw [hcon] at hlast
          simp at hlast
        rcases htw : rest.takeWhile (fun x => decide (target > x)) with _ | ⟨t0, ts⟩
        · exact absurd htw hne
        · rw [htw] at hlast
          simp only [List.getLast?_cons_cons, hlast]
          simp only [List.length_cons]
          have : idx + (ts.length + 1 + 1) = idx + 1 + (ts.length + 1) := by omega
          rw [this]
    · rw [if_neg hst]
      rw [List.takeWhile_cons, if_neg (by simpa using hst)]
      simp only [List.getLast?_eq_none_iff.mpr rfl]
      refine largestBelowAux_stable target rest (idx + 1) best ?_
      intro y hy
      have h1 : s ≤ y := hall y hy
      intro hcon
      exact hst (lt_of_le_of_lt (le_trans h1 (le_refl y)) hcon) |>.elim

theorem head?_eq_getD (l : List Bin) (hne : l ≠ []) : l.head? = some (l.getD 0 dBin) := by
  cases l with
  | nil => exact absurd rfl hne
  | cons x xs => rfl

theorem getLast?_eq_getD (l : List Bin) (hne : l ≠ []) :
    l.getLast? = some (l.getD (l.length - 1) dBin) := by
  have hlen : 0 < l.length := List.length_pos.mpr hne
  have h1 : l.length - 1 < l.length := by omega
  rw [List.getLast?_eq_getElem?, List.getD_eq_getElem?_getD, List.getElem?_eq_getElem h1]
  rfl

theorem getBorderingBins_eq_spec (h : Histogram) (m M : ℚ) (i : ℕ)
    (hm : h.min_value = some m) (hM : h.max_value = some M)
    (hne : h.bins ≠ []) (hi : i ≤ h.bins.length) :
    h.getBorderingBins i = some (specBorderingBins h.bins m M i) := by
  unfold Histogram.getBorderingBins specBorderingBins
  by_cases h0 : i = 0
  · rw [if_pos h0, if_pos h0, hm, head?_eq_getD h.bins hne]
  · rw [if_neg h0, if_neg h0]
    by_cases hlen : i = h.bins.length
    · rw [if_pos hlen, if_pos hlen, getLast?_eq_getD h.bins hne, hM]
    · rw [if_neg hlen, if_neg hlen, if_pos (by omega)]

theorem bins_ne_nil_of_count (h : Histogram) (hc : h.count ≠ 0) : h.bins ≠ [] := by
  intro hnil
  apply hc
  unfold Histogram.count
  rw [hnil]
  rfl

theorem indexOf_eq_spec (bins : List Bin) (target : ℚ) :
    indexOfCumulativeCountLessThan bins target =
      specLargestPrefixBelow (specCumSums (specAdjAvgs bins)) target := by
  unfold specLargestPrefixBelow
  rw [← adjacentAvgs_eq_spec, ← prefixSums_eq_cumSums]
  rw [largestBelowAux_eq target (prefixSums 0 (adjacentAvgs bins)) 0 (0, 0)
    (prefixSums_mono (adjacentAvgs bins) 0 (adjacentAvgs_nonneg bins))]
  unfold indexOfCumulativeCountLessThan
  dsimp only
  rcases hlast : ((prefixSums 0 (adjacentAvgs bins)).takeWhile
      (fun s => decide (target > s))).getLast? with _ | s
  · rfl
  · simp

theorem indexOf_le_length (bins : List Bin) (target : ℚ) :
    (indexOfCumulativeCountLessThan bins target).1 ≤ bins.length := by
  unfold indexOfCumulativeCountLessThan
  dsimp only
  rcases hlast : ((prefixSums 0 (adjacentAvgs bins)).takeWhile
      (fun s => decide (target > s))).getLast? with _ | s
  · exact Nat.zero_le _
  · dsimp only
    calc ((prefixSums 0 (adjacentAvgs bins)).takeWhile
        (fun s => decide (target > s))).length
        ≤ (prefixSums 0 (adjacentAvgs bins)).length :=
          takeWhile_len_le _ _
      _ = bins.length := by rw [prefixSums_length, adjacentAvgs_length]

theorem quantile_branch_eq (sq : ℚ → ℚ) (lv rv L d a : ℚ) :
    lv + (rv - lv) * ((-(2 * L) + sq ((2 * L) ^ 2 - 4 * a * (-2 * d))) / (2 * a)) =
    lv + (rv - lv) * ((-(2 * L) + sq ((2 * L) ^ 2 + 8 * a * d)) / (2 * a)) := by
  have harg : (2 * L) ^ 2 - 4 * a * (-2 * d) = (2 * L) ^ 2 + 8 * a * d := by ring
  rw [harg]

theorem quantile_eq_spec (sq : ℚ → ℚ) (h : Histogram) (q m M : ℚ)
    (hm : h.min_value = some m) (hM : h.max_value = some M)
    (hq0 : 0 < q) (hq1 : q < 1) (hc : h.count ≠ 0) :
    h.quantile sq q = some (some (specQuantileValue sq h m M q)) := by
  unfold Histogram.quantile
  rw [if_neg (not_not_intro ⟨le_of_lt hq0, le_of_lt hq1⟩)]
  rw [if_neg (by intro he; rw [he] at hq0; exact lt_irrefl 0 hq0)]
  rw [if_neg (by intro he; rw [he] at hq1; exact lt_irrefl 1 hq1)]
  rw [if_neg hc]
  dsimp only
  rw [getBorderingBins_eq_spec h m M _ hm hM (bins_ne_nil_of_count h hc)
    (indexOf_le_length h.bins ((h.count : ℚ) * q))]
  dsimp only
  unfold specQuantileValue
  dsimp only
  rw [← indexOf_eq_spec]
  split_ifs with ha
  · rfl
  · congr 2
    exact quantile_branch_eq sq _ _ _ _ _

/-- C2: for every histogram with tracked extremes present (in particular every
non-empty reachable histogram) and every `q` with `0 < q < 1` and a nonzero
total count, `quantile(q)` returns exactly the value prescribed by the spec:
with `target = count() * q`, the largest prefix of the cumulative sums of the
averages of adjacent bin counts (starting with a virtual zero-count bin paired
with the first bin) whose sum `s` stays strictly below `target` is found, the
bordering bins `(left, right)` are taken at the index one past that prefix
(virtual zero-count bins carrying the tracked extremes at the two ends), and
with `d = target - s` and `a = right.count - left.count` the result is
`left.value + (right.value - left.value) * d / left.count` when `a = 0` and
otherwise `left.value + (right.value - left.value) * z` with
`z = (-2*left.count + sqrt((2*left.count)^2 + 8*a*d)) / (2*a)`. -/
theorem C2_quantile_formula (sq : ℚ → ℚ) (h : Histogram) (q m M : ℚ)
    (hm : h.min_value = some m) (hM : h.max_value = some M)
    (hq0 : 0 < q) (hq1 : q < 1) (hc : h.count ≠ 0) :
    h.quantile sq q = some (some (specQuantileValue sq h m M q)) :=
  quantile_eq_spec sq h q m M hm hM hq0 hq1 hc

/-- Witness for C2 at a concrete histogram and quantile. -/
theorem C2_witness :
    (⟨2, [⟨5, 3⟩], some 5, some 5⟩ : Histogram).min_value = some 5 ∧
    (⟨2, [⟨5, 3⟩], some 5, some 5⟩ : Histogram).max_value = some 5 ∧
    (0 : ℚ) < 1 / 2 ∧ (1 : ℚ) / 2 < 1 ∧
    (⟨2, [⟨5, 3⟩], some 5, some 5⟩ : Histogram).count ≠ 0 ∧
    (⟨2, [⟨5, 3⟩], some 5, some 5⟩ : Histogram).quantile (fun x => x) (1 / 2) =
      some (some (specQuantileValue (fun x => x) ⟨2, [⟨5, 3⟩], some 5, some 5⟩ 5 5 (1 / 2))) :=
  ⟨rfl, rfl, by norm_num, by norm_num, by decide,
    C2_quantile_formula (fun x => x) ⟨2, [⟨5, 3⟩], some 5, some 5⟩ (1 / 2) 5 5 rfl rfl
      (by norm_num) (by norm_num) (by decide)⟩

theorem specInsertPos_le_length (bins : List Bin) (key : Bin) :
    specInsertPos bins key ≤ bins.length := takeWhile_len_le _ bins

theorem countLe_eq_spec (h : Histogram) (value m M : ℚ)
    (hs : VSorted h.bins) (hz : ZerosFirst h.bins)
    (hm : h.min_value = some m) (hM : h.max_value = some M) :
    h.countLessThanOrEqualTo value = some (specCountLe h m M value) := by
  unfold Histogram.countLessThanOrEqualTo specCountLe
  rw [hm, hM]
  dsimp only
  simp only [decide_eq_true_eq]
  by_cases hzero : h.count = 0 ∨ value < m
  · rw [if_pos hzero, if_pos hzero]
  · rw [if_neg hzero, if_neg hzero]
    by_cases hMv : M ≤ value
    · rw [if_pos hMv, if_pos hMv]
    · rw [if_neg hMv, if_neg hMv]
      have hcne : h.count ≠ 0 := fun hc => hzero (Or.inl hc)
      have hne := bins_ne_nil_of_count h hcne
      rw [upperBound_probe_eq value hs hz,
        getBorderingBins_eq_spec h m M _ hm hM hne
          (specInsertPos_le_length h.bins (Bin.empty value))]
      dsimp only
      simp only [sub_nonpos]

/-- C3: for every reachable histogram, `count_less_than_or_equal_to(value)`
returns 0 when the histogram is empty, and otherwise (with tracked extremes
`m`/`M` present) returns exactly the spec's estimate: 0 when `value < m`, the
total count when `M <= value`, and otherwise the round-to-nearest integer of
`count_up_to_left + left.count/2 + between`, where `pos` is the upper-bound
insertion position of the zero-count probe bin `(value, 0)`, `count_up_to_left`
sums the counts of all real bins strictly before index `max(pos-1, 0)`,
`(left, right)` are the bordering bins at `pos`, and `between` is the
trapezoidal term `(left.count + interpolated_count)/2 * proximity`, taken as 0
when `right.value <= left.value`. -/
theorem C3_count_le_formula (h : Histogram) (value : ℚ) (hr : Reachable h) :
    (h.bins = [] → h.countLessThanOrEqualTo value = some 0) ∧
    (∀ m M, h.min_value = some m → h.max_value = some M →
      h.countLessThanOrEqualTo value = some (specCountLe h m M value)) := by
  obtain ⟨hsz, hlen, hs, hz, hminn, hmaxn, hmb, hMb⟩ := reachable_inv hr
  constructor
  · intro hnil
    have hc : h.count = 0 := by unfold Histogram.count; rw [hnil]; rfl
    unfold Histogram.countLessThanOrEqualTo
    dsimp only
    rw [if_pos (Or.inl hc)]
  · intro m M hm hM
    exact countLe_eq_spec h value m M hs hz hm hM

/-- Witness for C3 at a concrete reachable histogram and query value. -/
theorem C3_witness :
    Reachable (⟨2, [⟨5, 3⟩], some 5, some 5⟩ : Histogram) ∧
    (⟨2, [⟨5, 3⟩], some 5, some 5⟩ : Histogram).countLessThanOrEqualTo 4 =
      some (specCountLe ⟨2, [⟨5, 3⟩], some 5, some 5⟩ 5 5 4) :=
  ⟨reachable_oneBin53,
    (C3_count_le_formula ⟨2, [⟨5, 3⟩], some 5, some 5⟩ 4 reachable_oneBin53).2
      5 5 rfl rfl⟩

/-- C7 (amended): on every reachable histogram, `quantile(q)` panics exactly
when `q` lies outside `[0, 1]`; for `0 < q < 1` it returns `None` exactly when
the total count is zero; at `q = 0` (resp. `q = 1`) it returns `None` exactly
when the tracked minimum (resp. maximum) is absent.  "None iff the histogram
is empty" fails as stated: a reachable histogram with a zero-count bin has
total count 0 yet a nonempty bin list and present extremes — see the
counterexample. -/
theorem C7_quantile_failure_conditions (sq : ℚ → ℚ) (h : Histogram) (q : ℚ)
    (hr : Reachable h) :
    (h.quantile sq q = none ↔ ¬ (0 ≤ q ∧ q ≤ 1)) ∧
    (0 < q → q < 1 → (h.quantile sq q = some none ↔ h.count = 0)) ∧
    (h.quantile sq 0 = some none ↔ h.min_value = none) ∧
    (h.quantile sq 1 = some none ↔ h.max_value = none) := by
  obtain ⟨hsz, hlen, hs, hz, hminn, hmaxn, hmb, hMb⟩ := reachable_inv hr
  refine ⟨?_, ?_, ?_, ?_⟩
  · by_cases hq : 0 ≤ q ∧ q ≤ 1
    · have hne : h.quantile sq q ≠ none := by
        by_cases h0 : q = 0
        · subst h0
          unfold Histogram.quantile
          rw [if_neg (not_not_intro hq), if_pos rfl]
          exact Option.some_ne_none _
        · by_cases h1 : q = 1
          · subst h1
            unfold Histogram.quantile
            rw [if_neg (not_not_intro hq), if_neg (by norm_num), if_pos rfl]
            exact Option.some_ne_none _
          · by_cases hc : h.count = 0
            · unfold Histogram.quantile
              rw [if_neg (not_not_intro hq), if_neg h0, if_neg h1, if_pos hc]
              exact Option.some_ne_none _
            · have hbne := bins_ne_nil_of_count h hc
              rcases hmv : h.min_value with _ | m
              · exact absurd (hminn.mpr hmv) hbne
              rcases hMv : h.max_value with _ | M
              · exact absurd (hmaxn.mpr hMv) hbne
              rw [quantile_eq_spec sq h q m M hmv hMv
                (lt_of_le_of_ne hq.1 (Ne.symm h0)) (lt_of_le_of_ne hq.2 h1) hc]
              exact Option.some_ne_none _
      exact iff_of_false hne (not_not_intro hq)
    · refine iff_of_true ?_ hq
      unfold Histogram.quantile
      rw [if_pos hq]
  · intro hq0 hq1
    by_cases hc : h.count = 0
    · refine iff_of_true ?_ hc
      unfold Histogram.quantile
      rw [if_neg (not_not_intro ⟨le_of_lt hq0, le_of_lt hq1⟩),
        if_neg (ne_of_gt hq0), if_neg (ne_of_lt hq1), if_pos hc]
    · have hbne := bins_ne_nil_of_count h hc
      rcases hmv : h.min_value with _ | m
      · exact absurd (hminn.mpr hmv) hbne
      rcases hMv : h.max_value with _ | M
      · exact absurd (hmaxn.mpr hMv) hbne
      rw [quantile_eq_spec sq h q m M hmv hMv hq0 hq1 hc]
      refine iff_of_false ?_ hc
      simp
  · have hq0 : h.quantile sq 0 = some h.min_value := by
      unfold Histogram.quantile
      rw [if_neg (by norm_num), if_pos rfl]
    rw [hq0]
    simp
  · have hq1 : h.quantile sq 1 = some h.max_value := by
      unfold Histogram.quantile
      rw [if_neg (by norm_num), if_neg (by norm_num), if_pos rfl]
    rw [hq1]
    simp

/-- Counterexample to C7 as stated: a reachable histogram with a single
zero-count bin has total count 0 yet a nonempty bin list; `quantile(0)`
returns the tracked minimum (not `None`) although the histogram holds no
data, while `quantile(1/2)` returns `None` although the bin list is
nonempty — so "returns `None` iff the histogram is empty" fails under either
reading of "empty". -/
theorem C7_counterexample :
    Reachable histZeroBin ∧ histZeroBin.count = 0 ∧ histZeroBin.bins ≠ [] ∧
    histZeroBin.quantile (fun x => x) 0 = some (some 42) ∧
    histZeroBin.quantile (fun x => x) (1 / 2) = some none := by
  refine ⟨reachable_histZeroBin, rfl, by simp [histZeroBin], ?_, ?_⟩
  · norm_num [Histogram.quantile, histZeroBin]
  · norm_num [Histogram.quantile, Histogram.count, histZeroBin]

/-- Witness for C7 (amended) at the empty reachable histogram. -/
theorem C7_witness :
    Reachable (⟨2, [], none, none⟩ : Histogram) ∧
    (((⟨2, [], none, none⟩ : Histogram).quantile (fun x => x) (1 / 2) = none ↔
        ¬ ((0 : ℚ) ≤ 1 / 2 ∧ (1 / 2 : ℚ) ≤ 1)) ∧
      ((0 : ℚ) < 1 / 2 → (1 / 2 : ℚ) < 1 →
        ((⟨2, [], none, none⟩ : Histogram).quantile (fun x => x) (1 / 2) = some none ↔
          (⟨2, [], none, none⟩ : Histogram).count = 0)) ∧
      ((⟨2, [], none, none⟩ : Histogram).quantile (fun x => x) 0 = some none ↔
        (⟨2, [], none, none⟩ : Histogram).min_value = none) ∧
      ((⟨2, [], none, none⟩ : Histogram).quantile (fun x => x) 1 = some none ↔
        (⟨2, [], none, none⟩ : Histogram).max_value = none)) :=
  ⟨reachable_empty2,
    C7_quantile_failure_conditions (fun x => x) ⟨2, [], none, none⟩ (1 / 2)
      reachable_empty2⟩

theorem SQ_succ (bins : List Bin) (k : ℕ) (hk : k < bins.length) :
    SQ bins (k + 1) = SQ bins k + ((bins.getD k dBin).count : ℚ) := by
  unfold SQ
  rw [List.take_succ, List.getElem?_eq_getElem hk,
    List.getD_eq_getElem?_getD, List.getElem?_eq_getElem hk]
  simp only [Option.toList_some, List.map_append, List.sum_append, List.map_cons,
    List.map_nil, List.sum_cons, List.sum_nil, Option.getD_some]
  push_cast
  ring

theorem SQ_of_le (bins : List Bin) (k : ℕ) (hk : bins.length ≤ k) :
    SQ bins k = (sumCounts bins : ℚ) := by
  unfold SQ sumCounts
  rw [List.take_of_length_le hk]

theorem cumHalf_le_succ (bins : List Bin) (p : ℕ) :
    cumHalf bins p ≤ cumHalf bins (p + 1) := by
  by_cases hp : p < bins.length
  · unfold cumHalf
    rw [SQ_succ bins p hp]
    have h1 : (0 : ℚ) ≤ ((bins.getD p dBin).count : ℚ) := Nat.cast_nonneg _
    have h2 : (0 : ℚ) ≤ ((bins.getD (p + 1) dBin).count : ℚ) := Nat.cast_nonneg _
    linarith
  · have hlen : bins.length ≤ p := by omega
    unfold cumHalf
    rw [SQ_of_le bins p hlen, SQ_of_le bins (p + 1) (by omega),
      List.getD_eq_default _ _ hlen, List.getD_eq_default _ _ (by omega)]

theorem cumHalf_mono (bins : List Bin) {p q : ℕ} (hpq : p ≤ q) :
    cumHalf bins p ≤ cumHalf bins q := by
  induction q, hpq using Nat.le_induction with
  | base => exact le_refl _
  | succ n hn ih => exact le_trans ih (cumHalf_le_succ bins n)

theorem cumHalf_past_end (bins : List Bin) (p : ℕ) (hp : bins.length ≤ p) :
    cumHalf bins p = (sumCounts bins : ℚ) := by
  unfold cumHalf
  rw [SQ_of_le bins p hp, List.getD_eq_default _ _ hp]
  show (sumCounts bins : ℚ) + ((0 : ℕ) : ℚ) / 2 = (sumCounts bins : ℚ)
  norm_num

theorem takeWhile_length_mono {α : Type} (p q : α → Bool)
    (himp : ∀ x, p x = true → q x = true) :
    ∀ l : List α, (l.takeWhile p).length ≤ (l.takeWhile q).length := by
  intro l
  induction l with
  | nil => simp
  | cons x xs ih =>
    rw [List.takeWhile_cons, List.takeWhile_cons]
    by_cases hp : p x = true
    · rw [if_pos hp, if_pos (himp x hp)]
      simpa using ih
    · rw [if_neg hp]
      exact Nat.zero_le _

theorem specInsertPos_probe_mono (bins : List Bin) {v1 v2 : ℚ} (h12 : v1 ≤ v2) :
    specInsertPos bins (Bin.empty v1) ≤ specInsertPos bins (Bin.empty v2) := by
  unfold specInsertPos
  refine takeWhile_length_mono _ _ ?_ bins
  intro x hx
  simp only [decide_eq_true_eq, Bin.le, Bin.empty] at hx ⊢
  rcases hx with hlt | ⟨heq, hcnt⟩
  · exact Or.inl (lt_of_lt_of_le hlt h12)
  · rcases lt_or_eq_of_le h12 with hlt2 | heq2
    · exact Or.inl (by rw [heq]; exact hlt2)
    · exact Or.inr ⟨by rw [heq, heq2], hcnt⟩

theorem specInsertPos_pred_true (bins : List Bin) (key : Bin) (i : ℕ)
    (hi : i < specInsertPos bins key) : Bin.le (bins.getD i dBin) key := by
  have h := takeWhile_getD_true (fun x => decide (Bin.le x key)) dBin bins i hi
  simpa using h

theorem specInsertPos_pred_false (bins : List Bin) (key : Bin)
    (hlt : specInsertPos bins key < bins.length) :
    ¬ Bin.le (bins.getD (specInsertPos bins key) dBin) key := by
  have h := takeWhile_getD_false (fun x => decide (Bin.le x key)) dBin bins hlt
  simpa using h

theorem rustRound_mono {x y : ℚ} (hxy : x ≤ y) : rustRound x ≤ rustRound y := by
  unfold rustRound
  by_cases hx : 0 ≤ x
  · rw [if_pos hx, if_pos (le_trans hx hxy)]
    exact Int.floor_le_floor (by linarith)
  · rw [if_neg hx]
    by_cases hy : 0 ≤ y
    · rw [if_pos hy]
      have h1 : (0 : ℤ) ≤ ⌊y + 1 / 2⌋ := Int.floor_nonneg.mpr (by linarith)
      have h2 : (0 : ℤ) ≤ ⌊-x + 1 / 2⌋ := by
        push_neg at hx
        exact Int.floor_nonneg.mpr (by linarith)
      omega
    · rw [if_neg hy]
      have h3 := Int.floor_le_floor (show -y + 1 / 2 ≤ -x + 1 / 2 by linarith)
      omega

theorem rustRound_natCast (n : ℕ) : rustRound (n : ℚ) = n := by
  unfold rustRound
  rw [if_pos (by positivity)]
  have hcast : ((n : ℚ) + 1 / 2) = ((n : ℤ) : ℚ) + 1 / 2 := by push_cast; ring
  rw [hcast, Int.floor_int_add]
  norm_num

theorem trap_nonneg {L R lv rv v : ℚ} (hL : 0 ≤ L) (hR : 0 ≤ R)
    (h1 : lv ≤ v) (h2 : v ≤ rv) : 0 ≤ trap L R lv rv v := by
  unfold trap
  split_ifs with hc
  · exact le_refl 0
  · push_neg at hc
    set t := (v - lv) / (rv - lv) with ht
    have ht0 : 0 ≤ t := div_nonneg (by linarith) (by linarith)
    have ht1 : t ≤ 1 := by
      rw [ht, div_le_one (by linarith)]
      linarith
    nlinarith [mul_nonneg (mul_nonneg hL ht0) (show (0 : ℚ) ≤ 2 - t by linarith),
      mul_nonneg (mul_nonneg hR ht0) ht0]

theorem trap_le {L R lv rv v : ℚ} (hL : 0 ≤ L) (hR : 0 ≤ R)
    (h1 : lv ≤ v) (h2 : v ≤ rv) : trap L R lv rv v ≤ (L + R) / 2 := by
  unfold trap
  split_ifs with hc
  · positivity
  · push_neg at hc
    set t := (v - lv) / (rv - lv) with ht
    have ht0 : 0 ≤ t := div_nonneg (by linarith) (by linarith)
    have ht1 : t ≤ 1 := by
      rw [ht, div_le_one (by linarith)]
      linarith
    nlinarith [mul_nonneg (mul_nonneg hL (show (0 : ℚ) ≤ 1 - t by linarith))
        (show (0 : ℚ) ≤ 1 - t by linarith),
      mul_nonneg (mul_nonneg hR (show (0 : ℚ) ≤ 1 - t by linarith))
        (show (0 : ℚ) ≤ 1 + t by linarith)]

theorem trap_mono {L R lv rv v1 v2 : ℚ} (hL : 0 ≤ L) (hR : 0 ≤ R)
    (h1 : lv ≤ v1) (h12 : v1 ≤ v2) (h2 : v2 ≤ rv) :
    trap L R lv rv v1 ≤ trap L R lv rv v2 := by
  unfold trap
  split_ifs with hc
  · exact le_refl 0
  · push_neg at hc
    set t1 := (v1 - lv) / (rv - lv) with ht1d
    set t2 := (v2 - lv) / (rv - lv) with ht2d
    have hd : (0 : ℚ) < rv - lv := by linarith
    have ht10 : 0 ≤ t1 := div_nonneg (by linarith) (by linarith)
    have ht12 : t1 ≤ t2 := by
      rw [ht1d, ht2d]
      exact (div_le_div_iff_of_pos_right hd).mpr (by linarith)
    have ht21 : t2 ≤ 1 := by
      rw [ht2d, div_le_one hd]
      linarith
    nlinarith [mul_nonneg (mul_nonneg hL (show (0 : ℚ) ≤ t2 - t1 by linarith))
        (show (0 : ℚ) ≤ 2 - t1 - t2 by linarith),
      mul_nonneg (mul_nonneg hR (show (0 : ℚ) ≤ t2 - t1 by linarith))
        (show (0 : ℚ) ≤ t1 + t2 by linarith)]

theorem specBordering_zero (bins : List Bin) (m M : ℚ) :
    specBorderingBins bins m M 0 = (Bin.empty m, bins.getD 0 dBin) := by
  unfold specBorderingBins
  rw [if_pos rfl]

theorem specBordering_last (bins : List Bin) (m M : ℚ) (p : ℕ) (h0 : p ≠ 0)
    (hp : p = bins.length) :
    specBorderingBins bins m M p = (bins.getD (p - 1) dBin, Bin.empty M) := by
  unfold specBorderingBins
  rw [if_neg h0, if_pos hp, hp]

theorem specBordering_mid (bins : List Bin) (m M : ℚ) (p : ℕ) (h0 : p ≠ 0)
    (hlt : p < bins.length) :
    specBorderingBins bins m M p = (bins.getD (p - 1) dBin, bins.getD p dBin) := by
  unfold specBorderingBins
  rw [if_neg h0, if_neg (show ¬ p = bins.length by omega)]

theorem specBordering_value_bounds (bins : List Bin) (m M v : ℚ) (hbne : bins ≠ [])
    (hmv : m ≤ v) (hvM : v ≤ M) :
    (specBorderingBins bins m M (specInsertPos bins (Bin.empty v))).1.value ≤ v ∧
    v ≤ (specBorderingBins bins m M (specInsertPos bins (Bin.empty v))).2.value := by
  have hple : specInsertPos bins (Bin.empty v) ≤ bins.length :=
    specInsertPos_le_length bins _
  have hlpos : 0 < bins.length := List.length_pos.mpr hbne
  by_cases h0 : specInsertPos bins (Bin.empty v) = 0
  · rw [h0, specBordering_zero]
    refine ⟨hmv, ?_⟩
    have hnle := specInsertPos_pred_false bins (Bin.empty v) (by omega)
    rw [h0] at hnle
    exact binNotLe_value_le hnle
  · by_cases hlen : specInsertPos bins (Bin.empty v) = bins.length
    · rw [specBordering_last bins m M _ h0 hlen]
      refine ⟨?_, hvM⟩
      have hle2 := specInsertPos_pred_true bins (Bin.empty v) _
        (show specInsertPos bins (Bin.empty v) - 1 < specInsertPos bins (Bin.empty v)
          by omega)
      exact binLe_value_le hle2
    · rw [specBordering_mid bins m M _ h0 (by omega)]
      constructor
      · exact binLe_value_le (specInsertPos_pred_true bins (Bin.empty v) _
          (show specInsertPos bins (Bin.empty v) - 1 < specInsertPos bins (Bin.empty v)
            by omega))
      · exact binNotLe_value_le (specInsertPos_pred_false bins (Bin.empty v) (by omega))

theorem specCountLe_middle (h : Histogram) (m M v : ℚ)
    (h1 : ¬ (h.count = 0 ∨ v < m)) (h2 : ¬ (M ≤ v)) :
    specCountLe h m M v = (rustRound (specMid h.bins m M v)).toNat := by
  unfold specCountLe specMid trap SQ
  rw [if_neg h1, if_neg h2]

theorem specMid_le_high (bins : List Bin) (m M v : ℚ) (hbne : bins ≠ [])
    (hmv : m ≤ v) (hvM : v ≤ M) :
    specMid bins m M v ≤ cumHalf bins (specInsertPos bins (Bin.empty v)) := by
  obtain ⟨hlv, hrv⟩ := specBordering_value_bounds bins m M v hbne hmv hvM
  have htrap := trap_le
    (Nat.cast_nonneg (specBorderingBins bins m M (specInsertPos bins (Bin.empty v))).1.count)
    (Nat.cast_nonneg (specBorderingBins bins m M (specInsertPos bins (Bin.empty v))).2.count)
    hlv hrv
  have hple : specInsertPos bins (Bin.empty v) ≤ bins.length :=
    specInsertPos_le_length bins _
  have hlpos : 0 < bins.length := List.length_pos.mpr hbne
  unfold specMid cumHalf
  by_cases h0 : specInsertPos bins (Bin.empty v) = 0
  · rw [h0] at htrap ⊢
    rw [specBordering_zero] at htrap ⊢
    dsimp only at htrap ⊢
    have hz : (((Bin.empty m).count : ℕ) : ℚ) = 0 := by
      show ((0 : ℕ) : ℚ) = 0
      norm_num
    rw [hz] at htrap ⊢
    have hzsub : (0 : ℕ) - 1 = 0 := rfl
    rw [hzsub]
    linarith
  · have hSQ := SQ_succ bins (specInsertPos bins (Bin.empty v) - 1) (by omega)
    rw [show specInsertPos bins (Bin.empty v) - 1 + 1 = specInsertPos bins (Bin.empty v)
      from by omega] at hSQ
    by_cases hlen : specInsertPos bins (Bin.empty v) = bins.length
    · rw [specBordering_last bins m M _ h0 hlen] at htrap ⊢
      dsimp only at htrap ⊢
      have hz : (((Bin.empty M).count : ℕ) : ℚ) = 0 := by
        show ((0 : ℕ) : ℚ) = 0
        norm_num
      rw [hz] at htrap ⊢
      rw [List.getD_eq_default bins dBin (show bins.length ≤ specInsertPos bins (Bin.empty v)
        from by omega)]
      have hzd : ((dBin.count : ℕ) : ℚ) = 0 := by
        show ((0 : ℕ) : ℚ) = 0
        norm_num
      rw [hzd]
      linarith
    · rw [specBordering_mid bins m M _ h0 (by omega)] at htrap ⊢
      dsimp only at htrap ⊢
      linarith

theorem low_le_specMid (bins : List Bin) (m M v : ℚ) (hbne : bins ≠ [])
    (hmv : m ≤ v) (hvM : v ≤ M) (hp1 : 1 ≤ specInsertPos bins (Bin.empty v)) :
    cumHalf bins (specInsertPos bins (Bin.empty v) - 1) ≤ specMid bins m M v := by
  obtain ⟨hlv, hrv⟩ := specBordering_value_bounds bins m M v hbne hmv hvM
  have htrap := trap_nonneg
    (Nat.cast_nonneg (specBorderingBins bins m M (specInsertPos bins (Bin.empty v))).1.count)
    (Nat.cast_nonneg (specBorderingBins bins m M (specInsertPos bins (Bin.empty v))).2.count)
    hlv hrv
  have hple : specInsertPos bins (Bin.empty v) ≤ bins.length :=
    specInsertPos_le_length bins _
  unfold specMid cumHalf
  by_cases hlen : specInsertPos bins (Bin.empty v) = bins.length
  · rw [specBordering_last bins m M _ (by omega) hlen] at htrap ⊢
    dsimp only at htrap ⊢
    linarith
  · rw [specBordering_mid bins m M _ (by omega) (by omega)] at htrap ⊢
    dsimp only at htrap ⊢
    linarith

theorem specMid_mono_of_eq (bins : List Bin) (m M v1 v2 : ℚ) (hbne : bins ≠ [])
    (hmv1 : m ≤ v1) (hv1M : v1 ≤ M) (hmv2 : m ≤ v2) (hv2M : v2 ≤ M) (h12 : v1 ≤ v2)
    (hpp : specInsertPos bins (Bin.empty v1) = specInsertPos bins (Bin.empty v2)) :
    specMid bins m M v1 ≤ specMid bins m M v2 := by
  obtain ⟨hlv1, _⟩ := specBordering_value_bounds bins m M v1 hbne hmv1 hv1M
  obtain ⟨_, hrv2⟩ := specBordering_value_bounds bins m M v2 hbne hmv2 hv2M
  rw [← hpp] at hrv2
  have hmono := trap_mono
    (Nat.cast_nonneg (specBorderingBins bins m M (specInsertPos bins (Bin.empty v1))).1.count)
    (Nat.cast_nonneg (specBorderingBins bins m M (specInsertPos bins (Bin.empty v1))).2.count)
    hlv1 h12 hrv2
  unfold specMid
  rw [← hpp]
  linarith

theorem specCountLe_mono (h : Histogram) (m M v1 v2 : ℚ)
    (hmb : ∀ b ∈ h.bins, m ≤ b.value) (hMb : ∀ b ∈ h.bins, b.value ≤ M)
    (hbne : h.bins ≠ []) (h12 : v1 ≤ v2) :
    specCountLe h m M v1 ≤ specCountLe h m M v2 := by
  by_cases hc : h.count = 0
  · unfold specCountLe
    rw [if_pos (Or.inl hc), if_pos (Or.inl hc)]
  · by_cases hv1m : v1 < m
    · unfold specCountLe
      rw [if_pos (Or.inr hv1m)]
      exact Nat.zero_le _
    · have hmv1 : m ≤ v1 := not_lt.mp hv1m
      have hmv2 : m ≤ v2 := le_trans hmv1 h12
      by_cases hM1 : M ≤ v1
      · have hM2 : M ≤ v2 := le_trans hM1 h12
        unfold specCountLe
        rw [if_neg (show ¬ (h.count = 0 ∨ v1 < m) by push_neg; exact ⟨hc, hmv1⟩),
          if_neg (show ¬ (h.count = 0 ∨ v2 < m) by push_neg; exact ⟨hc, hmv2⟩),
          if_pos hM1, if_pos hM2]
      · have hv1M : v1 < M := not_le.mp hM1
        by_cases hM2 : M ≤ v2
        · rw [specCountLe_middle h m M v1 (by push_neg; exact ⟨hc, hmv1⟩) hM1]
          unfold specCountLe
          rw [if_neg (show ¬ (h.count = 0 ∨ v2 < m) by push_neg; exact ⟨hc, hmv2⟩),
            if_pos hM2]
          have hb1 := specMid_le_high h.bins m M v1 hbne hmv1 (le_of_lt hv1M)
          have hb2 : cumHalf h.bins (specInsertPos h.bins (Bin.empty v1)) ≤
              cumHalf h.bins h.bins.length :=
            cumHalf_mono h.bins (specInsertPos_le_length _ _)
          have hb3 : cumHalf h.bins h.bins.length = (sumCounts h.bins : ℚ) :=
            cumHalf_past_end _ _ le_rfl
          have hle : specMid h.bins m M v1 ≤ (h.count : ℚ) := by
            rw [count_eq_sumCounts]
            linarith
          have hround := rustRound_mono hle
          rw [rustRound_natCast h.count] at hround
          calc (rustRound (specMid h.bins m M v1)).toNat
              ≤ ((h.count : ℤ)).toNat := Int.toNat_le_toNat hround
            _ = h.count := Int.toNat_natCast h.count
        · have hv2M : v2 < M := not_le.mp hM2
          rw [specCountLe_middle h m M v1 (by push_neg; exact ⟨hc, hmv1⟩) hM1,
            specCountLe_middle h m M v2 (by push_neg; exact ⟨hc, hmv2⟩) hM2]
          have hpm := specInsertPos_probe_mono h.bins h12
          have hmid : specMid h.bins m M v1 ≤ specMid h.bins m M v2 := by
            rcases eq_or_lt_of_le hpm with heq | hlt
            · exact specMid_mono_of_eq h.bins m M v1 v2 hbne hmv1 (le_of_lt hv1M)
                hmv2 (le_of_lt hv2M) h12 heq
            · have hb1 := specMid_le_high h.bins m M v1 hbne hmv1 (le_of_lt hv1M)
              have hb2 := low_le_specMid h.bins m M v2 hbne hmv2 (le_of_lt hv2M) (by omega)
              have hb3 : cumHalf h.bins (specInsertPos h.bins (Bin.empty v1)) ≤
                  cumHalf h.bins (specInsertPos h.bins (Bin.empty v2) - 1) :=
                cumHalf_mono h.bins (by omega)
              linarith
          exact Int.toNat_le_toNat (rustRound_mono hmid)

/-- C9: on every reachable histogram, `count_less_than_or_equal_to` is
monotone non-decreasing in its argument; it returns 0 for every argument
strictly below the tracked minimum and returns the exact total count for
every argument at or above the tracked maximum. -/
theorem C9_count_le_monotone (h : Histogram) (hr : Reachable h) :
    (∀ v1 v2 n1 n2, v1 ≤ v2 → h.countLessThanOrEqualTo v1 = some n1 →
      h.countLessThanOrEqualTo v2 = some n2 → n1 ≤ n2) ∧
    (∀ v m, h.min_value = some m → v < m → h.countLessThanOrEqualTo v = some 0) ∧
    (∀ v M, h.max_value = some M → M ≤ v → h.countLessThanOrEqualTo v = some h.count) := by
  obtain ⟨hsz, hlenb, hs, hz, hminn, hmaxn, hmb, hMb⟩ := reachable_inv hr
  refine ⟨?_, ?_, ?_⟩
  · intro v1 v2 n1 n2 h12 he1 he2
    by_cases hc : h.count = 0
    · have h0 : h.countLessThanOrEqualTo v1 = some 0 := by
        unfold Histogram.countLessThanOrEqualTo
        dsimp only
        rw [if_pos (Or.inl hc)]
      rw [h0] at he1
      simp only [Option.some.injEq] at he1
      omega
    · have hbne := bins_ne_nil_of_count h hc
      rcases hmv : h.min_value with _ | m
      · exact absurd (hminn.mpr hmv) hbne
      rcases hMv : h.max_value with _ | M
      · exact absurd (hmaxn.mpr hMv) hbne
      rw [countLe_eq_spec h v1 m M hs hz hmv hMv] at he1
      rw [countLe_eq_spec h v2 m M hs hz hmv hMv] at he2
      simp only [Option.some.injEq] at he1 he2
      have hmono := specCountLe_mono h m M v1 v2 (hmb m hmv) (hMb M hMv) hbne h12
      omega
  · intro v m hm hvm
    unfold Histogram.countLessThanOrEqualTo
    rw [hm]
    dsimp only
    rw [if_pos (Or.inr (decide_eq_true hvm))]
  · intro v M hM hMv2
    by_cases hc : h.count = 0
    · unfold Histogram.countLessThanOrEqualTo
      dsimp only
      rw [if_pos (Or.inl hc), hc]
    · have hbne := bins_ne_nil_of_count h hc
      rcases hmv : h.min_value with _ | m
      · exact absurd (hminn.mpr hmv) hbne
      have hmM : m ≤ M := by
        obtain ⟨b, hb⟩ := List.exists_mem_of_ne_nil h.bins hbne
        exact le_trans (hmb m hmv b hb) (hMb M hM b hb)
      unfold Histogram.countLessThanOrEqualTo
      rw [hmv, hM]
      dsimp only
      rw [if_neg (by simp only [decide_eq_true_eq]; push_neg; exact ⟨hc, by linarith⟩),
        if_pos (decide_eq_true hMv2)]

/-- Witness for C9 at a concrete reachable histogram: at/above the tracked
maximum the query returns the exact total count. -/
theorem C9_witness :
    Reachable (⟨2, [⟨5, 3⟩], some 5, some 5⟩ : Histogram) ∧
    (⟨2, [⟨5, 3⟩], some 5, some 5⟩ : Histogram).countLessThanOrEqualTo 6 =
      some (⟨2, [⟨5, 3⟩], some 5, some 5⟩ : Histogram).count :=
  ⟨reachable_oneBin53,
    (C9_count_le_monotone ⟨2, [⟨5, 3⟩], some 5, some 5⟩ reachable_oneBin53).2.2
      6 5 rfl (by norm_num)⟩
